import Mathlib

/-!
Shallow embedding of the FreeCell solver (freecell.py, search.py).

Representation notes, kept fixed throughout this development:

* A card `(rank, suit)` mirrors `Card(rank, suit)`; suits are indexed as in
  `_SUIT_LST = ('D', 'H', 'C', 'S')`, so suits 0 and 1 are red.
* A tableau column is a string in the source with the playable card as its
  last two characters.  Here a column is a `List Card` with the playable
  (top) card at the HEAD, so the source's `col[-2:]` is `headI`, `col[:-2]`
  is `tail`, `col[-4:-2]` is `tail.headI`, and `len(col) > 2` is
  `1 < col.length`.
* A state `(h0, h1, h2, h3, free, tableau)` becomes a structure with
  `home : Fin 4 → Nat` (the 4-tuple), `free : Finset Card` (frozenset) and
  `tab : Finset (List Card)` (frozenset of columns).
* The dictionary `av_tab` (top card ↦ its column) is an association list
  `List (Card × Col)`; on states satisfying the deck invariant column tops
  are pairwise distinct, so the association list is faithful to the dict.
* Python set/dict iteration order is unspecified; iterations are embedded
  via `enum` (a sorted enumeration of the set) or the association list
  itself: one concrete order.
-/

structure Card where
  rank : Nat
  suit : Fin 4
deriving DecidableEq, Repr

instance : Inhabited Card := ⟨⟨0, 0⟩⟩

/-- A sort key for cards, used only to fix one concrete enumeration order
for the source's (unspecified) set and dict iteration order. -/
def Card.key (c : Card) : Nat := c.rank * 4 + c.suit.val

instance : LinearOrder Card :=
  LinearOrder.lift' Card.key (fun a b h => by
    have ha := a.suit.isLt
    have hb := b.suit.isLt
    simp only [Card.key] at h
    have hr : a.rank = b.rank := by omega
    have hs : a.suit.val = b.suit.val := by omega
    cases a; cases b; simp_all [Fin.ext_iff])

/-- Insertion into a sorted list (structural recursion, so that concrete
states evaluate inside the kernel). -/
def insertLE {α : Type} [LinearOrder α] (a : α) : List α → List α
  | [] => [a]
  | b :: t => if a ≤ b then a :: b :: t else b :: insertLE a t

/-- Insertion sort. -/
def sortLE {α : Type} [LinearOrder α] : List α → List α
  | [] => []
  | a :: t => insertLE a (sortLE t)

def insertLE_perm {α : Type} [LinearOrder α] (a : α) :
    ∀ m : List α, List.Perm (insertLE a m) (a :: m)
  | [] => .refl _
  | b :: t => by
    simp only [insertLE]
    split
    · exact .refl _
    · exact ((insertLE_perm a t).cons b).trans (List.Perm.swap a b t)

def sortLE_perm {α : Type} [LinearOrder α] : ∀ m : List α, List.Perm (sortLE m) m
  | [] => .refl _
  | a :: t => (insertLE_perm a (sortLE t)).trans ((sortLE_perm t).cons a)

def insertLE_sorted {α : Type} [LinearOrder α] (a : α) :
    ∀ m : List α, m.Sorted (· ≤ ·) → (insertLE a m).Sorted (· ≤ ·) := by
  intro m
  induction m with
  | nil => intro _; simp [insertLE]
  | cons b t ih =>
    intro hs
    rw [List.sorted_cons] at hs
    simp only [insertLE]
    split_ifs with hab
    · rw [List.sorted_cons]
      refine ⟨fun x hx => ?_, ?_⟩
      · rcases List.mem_cons.1 hx with rfl | hx
        · exact hab
        · exact le_trans hab (hs.1 x hx)
      · rw [List.sorted_cons]; exact hs
    · rw [List.sorted_cons]
      refine ⟨fun x hx => ?_, ih hs.2⟩
      rcases List.mem_cons.1 ((insertLE_perm a t).mem_iff.1 hx) with h1 | hx2
      · subst h1
        exact le_of_not_le hab
      · exact hs.1 x hx2

def sortLE_sorted {α : Type} [LinearOrder α] :
    ∀ m : List α, (sortLE m).Sorted (· ≤ ·)
  | [] => by simp [sortLE]
  | a :: t => insertLE_sorted a _ (sortLE_sorted t)

/-- One concrete enumeration of a finite set, standing in for the source's
unspecified set iteration order. -/
def enum {α : Type} [LinearOrder α] (s : Finset α) : List α :=
  Quotient.liftOn s.val sortLE fun l l' h =>
    List.eq_of_perm_of_sorted ((sortLE_perm l).trans (h.trans (sortLE_perm l').symm))
      (sortLE_sorted l) (sortLE_sorted l')

/-- `is_red`: suits 'D' (0) and 'H' (1) are red. -/
def Card.isRedSuit (s : Fin 4) : Bool := s = 0 || s = 1

/-- `card.is_red`. -/
def Card.isRed (c : Card) : Bool := Card.isRedSuit c.suit

/-- `card.type = (rank, is_red)`, used for tableau-stacking compatibility. -/
def Card.type (c : Card) : Nat × Bool := (c.rank, c.isRed)

/-- `card.next_type`: `(rank - 1, not is_red)` if `rank > 1` else `None`.
This is the type of the card that may be stacked onto `c` in the tableau. -/
def Card.nextType (c : Card) : Option (Nat × Bool) :=
  if 1 < c.rank then some (c.rank - 1, !c.isRed) else none

/-- `self._next_in_rank[card]`: the next card of the same suit, one rank up. -/
def Card.nextInRank (c : Card) : Card := ⟨c.rank + 1, c.suit⟩

/-- `self._opp_color[suit]`: the suits of the opposite color. -/
def oppColor (s : Fin 4) : Finset (Fin 4) :=
  Finset.univ.filter fun o => Card.isRedSuit o ≠ Card.isRedSuit s

/-- `self._sibling_suit[suit]`: the other suit of the same color. -/
def siblingSuit : Fin 4 → Fin 4
  | 0 => 1
  | 1 => 0
  | 2 => 3
  | 3 => 2

/-- A tableau column: top (playable) card first. -/
abbrev Col := List Card

/-- The top card of a column (`col[-2:]`); columns in a tableau are never
empty, so the default is never consulted there. -/
def colTop (col : Col) : Card := col.headI

/-- A board state, mirroring the 6-tuple
`(home0, home1, home2, home3, free, tableau)`. -/
structure BState where
  home : Fin 4 → Nat
  free : Finset Card
  tab : Finset Col
deriving DecidableEq

/-- `FreeCellProblem.is_goal`. -/
def isGoal (s : BState) : Prop := ∀ i : Fin 4, s.home i = 13

/-- `_remove_card_from_col`: remove the top card of `col` from the tableau;
the shortened column is kept only if it is still nonempty. -/
def removeCardFromCol (tab : Finset Col) (col : Col) : Finset Col :=
  if col.tail = [] then tab.erase col else insert col.tail (tab.erase col)

/-- `_add_card_to_col`: replace `col` with `col` plus `card` on top. -/
def addCardToCol (tab : Finset Col) (col : Col) (card : Card) : Finset Col :=
  insert (card :: col) (tab.erase col)

/-- `_add_card_to_new_col`. -/
def addCardToNewCol (tab : Finset Col) (card : Card) : Finset Col :=
  insert [card] tab

/-- `_add_card_to_free`. -/
def addCardToFree (free : Finset Card) (card : Card) : Finset Card :=
  insert card free

/-- `_remove_card_from_free`. -/
def removeCardFromFree (free : Finset Card) (card : Card) : Finset Card :=
  free.erase card

/-- `_to_home`: the home cells after adding `card`, or `None` if `card` is
not a needed card. -/
def toHome (home : Fin 4 → Nat) (neededHomeSet : Finset Card) (card : Card) :
    Option (Fin 4 → Nat) :=
  if card ∈ neededHomeSet then some (Function.update home card.suit card.rank)
  else none

/-- `_remove_from_home`: decrement the home rank of `card`'s suit.  (All
call sites pass a card from `_av_home`, whose suit has home rank ≥ 1.) -/
def removeFromHome (home : Fin 4 → Nat) (card : Card) : Fin 4 → Nat :=
  Function.update home card.suit (home card.suit - 1)

/-- `_av_home`: the top card of every nonempty home pile. -/
def avHome (home : Fin 4 → Nat) : Finset Card :=
  (Finset.univ.filter fun s => 0 < home s).image fun s => ⟨home s, s⟩

/-- `_needed_home`: the next card needed by every unfinished home pile. -/
def neededHome (home : Fin 4 → Nat) : Finset Card :=
  (Finset.univ.filter fun s => home s < 13).image fun s => ⟨home s + 1, s⟩

/-- `_av_tab`: the dict mapping each column's top card to the column,
embedded as an association list over the tableau. -/
def avTabL (tab : Finset Col) : List (Card × Col) :=
  enum tab |>.map fun col => (colTop col, col)

/-- `_needed_tab(av_tab).get(t, [])`: the columns whose top card can
receive a card of type `t` (only tops of rank > 1 contribute). -/
def neededTabOf (av : List (Card × Col)) (t : Nat × Bool) : List Col :=
  (av.filter fun p => p.1.nextType = some t).map Prod.snd

/-- `_automatic_cards`: the subset of `cards` that may be sent home
automatically, judged against the home ranks `home`. -/
def automaticCards (home : Fin 4 → Nat) (cards : Finset Card) : Finset Card :=
  cards.filter fun card =>
    card.rank ≤ 2 ∨
      ((∀ o ∈ oppColor card.suit, card.rank - 1 ≤ home o) ∧
        (card.rank = 3 ∨ card.rank - 2 ≤ home (siblingSuit card.suit)))

/-- `_move_home`: bump the card's suit home rank, drop the card from the
needed set and add its next-in-rank card when one exists. -/
def moveHome (card : Card) (needed : Finset Card) (home : Fin 4 → Nat) :
    Finset Card × (Fin 4 → Nat) :=
  (if card.rank < 13 then insert card.nextInRank (needed.erase card)
   else needed.erase card,
   Function.update home card.suit (home card.suit + 1))

/-- The mutable context threaded through `_auto_neighbor`:
home ranks, `needed_home`, `free`, `av_tab` and the tableau. -/
structure AutoCtx where
  home : Fin 4 → Nat
  needed : Finset Card
  free : Finset Card
  av : List (Card × Col)
  tab : Finset Col
deriving DecidableEq

/-- One iteration of the "From free" loop of `_auto_neighbor`. -/
def freeStep (acc : AutoCtx × Nat) (card : Card) : AutoCtx × Nat :=
  let ctx := acc.1
  let nh := moveHome card ctx.needed ctx.home
  (⟨nh.2, nh.1, ctx.free.erase card, ctx.av, ctx.tab⟩, acc.2 + 1)

/-- One iteration of the "From tab" loop of `_auto_neighbor`.  The lookup
never fails in the source (the snapshot is a subset of the dict's keys);
a failed lookup would raise there and is embedded as a no-op. -/
def tabStep (acc : AutoCtx × Nat) (card : Card) : AutoCtx × Nat :=
  let ctx := acc.1
  match ctx.av.lookup card with
  | none => acc
  | some col =>
    let nh := moveHome card ctx.needed ctx.home
    let av1 := ctx.av.filter fun p => p.1 ≠ card
    let av2 := if 1 < col.length then (colTop col.tail, col.tail) :: av1 else av1
    (⟨nh.2, nh.1, ctx.free, av2, removeCardFromCol ctx.tab col⟩, acc.2 + 1)

/-- The "From free" loop of `_auto_neighbor`: fold `freeStep` over the
snapshot `_automatic_cards(home, free & needed_home)`. -/
def freePass (ctx : AutoCtx) : AutoCtx × Nat :=
  (enum (automaticCards ctx.home (ctx.free ∩ ctx.needed))).foldl freeStep (ctx, 0)

/-- The "From tab" loop of `_auto_neighbor`: fold `tabStep` over the
snapshot `_automatic_cards(home, set(av_tab) & needed_home)`, taken after
the free loop ran. -/
def tabPass (acc : AutoCtx × Nat) : AutoCtx × Nat :=
  (enum (automaticCards acc.1.home
      (acc.1.needed.filter fun c => (acc.1.av.lookup c).isSome))).foldl tabStep acc

/-- One pass of the `while True` body of `_auto_neighbor`: the "From free"
loop followed by the "From tab" loop, returning the context and the pass's
`delta_cost`. -/
def autoPass (ctx : AutoCtx) : AutoCtx × Nat :=
  tabPass (freePass ctx)

/-- The `while True` loop of `_auto_neighbor`, with explicit fuel.  The
returned flag records that a pass with `delta_cost = 0` was reached (always
the case for the fuel used below; the source loops until then). -/
def autoRun : Nat → AutoCtx → Nat → AutoCtx × Nat × Bool
  | 0, ctx, cost => (ctx, cost, false)
  | fuel + 1, ctx, cost =>
    let a := autoPass ctx
    if a.2 = 0 then (a.1, cost, true)
    else autoRun fuel a.1 (cost + a.2)

/-- Each suit contributes at most 13 forced moves, so 53 passes always
suffice for the loop of `_auto_neighbor` to reach a pass with no moves. -/
def autoFuel : Nat := 53

/-- The context `neighbors` hands to `_auto_neighbor`. -/
def initCtx (s : BState) : AutoCtx :=
  ⟨s.home, neededHome s.home, s.free, avTabL s.tab, s.tab⟩

/-- `_auto_neighbor`: the compressed successor and its cost (`None` when no
move applies), together with the final (possibly mutated) context, which
the caller keeps using. -/
def autoNeighbor (s : BState) : Option (BState × Nat) × AutoCtx :=
  let r := autoRun autoFuel (initCtx s) 0
  (if r.2.1 = 0 then none else some (⟨r.1.home, r.1.free, r.1.tab⟩, r.2.1), r.1)

/-- `_to_tab`: tableaus obtained by putting `card` into the tableau from
outside: a new column when there is room, then every needing column. -/
def toTab (tab : Finset Col) (neededT : Nat × Bool → List Col) (card : Card) :
    List (Finset Col) :=
  (if tab.card < 8 then [addCardToNewCol tab card] else []) ++
    (neededT card.type).map fun col => addCardToCol tab col card

/-- `_within_tab`: tableaus obtained by moving a top card within the
tableau (to a new column only when the source column has more than one
card, and onto every needing column). -/
def withinTab (tab : Finset Col) (neededT : Nat × Bool → List Col)
    (av : List (Card × Col)) : List (Finset Col) :=
  av.flatMap fun p =>
    (if 1 < p.2.length ∧ tab.card < 8 then
      [addCardToNewCol (removeCardFromCol tab p.2) p.1]
     else []) ++
    (neededT p.1.type).map fun toCol =>
      addCardToCol (removeCardFromCol tab p.2) toCol p.1

/-- The non-automatic part of `neighbors`, using the context left behind by
`_auto_neighbor` (its `needed`, `free` and `av` fields) exactly as the
source does. -/
def genMovesCtx (s : BState) (ctx : AutoCtx) : List BState :=
  let needed := ctx.needed
  let avH := avHome s.home
  let neededT := neededTabOf ctx.av
  let fromFree := (enum ctx.free).flatMap fun card =>
    ((toTab s.tab neededT card).map fun nt =>
      BState.mk s.home (removeCardFromFree s.free card) nt) ++
    (match toHome s.home needed card with
     | some nh => [BState.mk nh (removeCardFromFree s.free card) s.tab]
     | none => [])
  let within := (withinTab s.tab neededT ctx.av).map fun nt =>
    BState.mk s.home s.free nt
  let tabToFree := if s.free.card < 4 then
      ctx.av.map fun p =>
        BState.mk s.home (addCardToFree s.free p.1) (removeCardFromCol s.tab p.2)
    else []
  let tabToHome := ctx.av.flatMap fun p =>
    match toHome s.home needed p.1 with
    | some nh => [BState.mk nh s.free (removeCardFromCol s.tab p.2)]
    | none => []
  let fromHome := (enum avH).flatMap fun card =>
    (if s.free.card < 4 then
      [BState.mk (removeFromHome s.home card) (addCardToFree s.free card) s.tab]
     else []) ++
    (toTab s.tab neededT card).map fun nt =>
      BState.mk (removeFromHome s.home card) s.free nt
  fromFree ++ within ++ tabToFree ++ tabToHome ++ fromHome

/-- `FreeCellProblem.neighbors`. -/
def neighbors (s : BState) : List (BState × Nat) :=
  let r := autoNeighbor s
  match r.1 with
  | some p => [p]
  | none => (genMovesCtx s r.2).map fun st => (st, 1)

/-- The per-column part of `heuristic`: scan the column from the bottom
card to the top, threading a per-suit minimum seeded at rank 13. -/
def heurCol (col : Col) : Nat :=
  (col.reverse.foldl
    (fun (acc : (Fin 4 → Nat) × Nat) card =>
      if acc.1 card.suit < card.rank then (acc.1, acc.2 + 2)
      else (Function.update acc.1 card.suit card.rank, acc.2 + 1))
    (fun _ => 13, 0)).2

/-- `heuristic`. -/
def heuristic (s : BState) : Nat :=
  s.free.card + ∑ col ∈ s.tab, heurCol col

/-- The heuristic as worded by the spec ("2 if the card's rank is not
below (i.e. ≥) the minimum rank already seen deeper in that column for
its suit"), to be compared with `heurCol` above. -/
def heurColSpec (col : Col) : Nat :=
  (col.reverse.foldl
    (fun (acc : (Fin 4 → Nat) × Nat) card =>
      if acc.1 card.suit ≤ card.rank then (acc.1, acc.2 + 2)
      else (Function.update acc.1 card.suit card.rank, acc.2 + 1))
    (fun _ => 13, 0)).2

/-- Spec-worded heuristic (see `heurColSpec`). -/
def heuristicSpec (s : BState) : Nat :=
  s.free.card + ∑ col ∈ s.tab, heurColSpec col

/-- The minimum of rank 13 and the ranks of the cards of suit `su` in
`deeper`. -/
def minRankOf (deeper : List Card) (su : Fin 4) : Nat :=
  ((deeper.filter fun d => d.suit = su).map Card.rank).foldr min 13

/-- Per-column heuristic contribution, stated directly on each card's
deeper same-suit minimum: 2 if the rank is strictly above that minimum,
1 otherwise.  `l` is the column from the bottom card up, `deeper` the
cards already passed. -/
def heurColMin : List Card → List Card → Nat
  | _, [] => 0
  | deeper, c :: rest =>
    (if minRankOf deeper c.suit < c.rank then 2 else 1) +
      heurColMin (deeper ++ [c]) rest

/-- The amended heuristic formula for a whole state. -/
def heuristicAmended (s : BState) : Nat :=
  s.free.card + ∑ col ∈ s.tab, heurColMin [] col.reverse

/-- `FreeCellProblem.move_description` messages, by category:
"Move X to a free cell.", "Move ... to its/their home cell(s).",
"Move X on top of Y.", "Move X to a new column.". -/
inductive MoveDesc where
  | toFreeCell (card : Card)
  | toHomeCells (cards : List Card)
  | ontoColumn (card target : Card)
  | toNewColumn (card : Card)
deriving DecidableEq

/-- The home-bound cards listed by `move_description`: for each suit, the
ranks `from_state[suit]+1 .. to_state[suit]`. -/
def toHomeCardsOf (fromS toS : BState) : List Card :=
  (List.finRange 4).flatMap fun su =>
    (List.range' (fromS.home su + 1) (toS.home su - fromS.home su)).map
      fun r => (⟨r, su⟩ : Card)

/-- `move_description`: check new free-cell cards, then home-rank
increases, then tableau changes; the source's final `raise ValueError` is
embedded as `none`. -/
def moveDescription (fromS toS : BState) : Option MoveDesc :=
  match enum (toS.free \ fromS.free) with
  | card :: _ => some (.toFreeCell card)
  | [] =>
    let toHomeCards := toHomeCardsOf fromS toS
    if toHomeCards ≠ [] then some (.toHomeCells toHomeCards)
    else
      match (enum toS.tab).find? (fun col => decide (col.tail ∈ fromS.tab)) with
      | some col => some (.ontoColumn (colTop col) (colTop col.tail))
      | none =>
        match (enum toS.tab).find?
            (fun col => decide (col.length = 1 ∧ col ∉ fromS.tab)) with
        | some col => some (.toNewColumn (colTop col))
        | none => none

/-! Open-set variants from search.py.  The state type is abstract. -/

/-- Python `list.pop()`: remove and return the last element. -/
def listPop {σ : Type} (l : List σ) : Option σ × List σ :=
  (l.getLast?, l.dropLast)

/-- Python `deque.popleft()`: remove and return the first element. -/
def dequePopleft {σ : Type} (l : List σ) : Option σ × List σ :=
  (l.head?, l.tail)

/-- `_Stack`. -/
structure SearchStack (σ : Type) where
  stack : List σ

/-- `_Stack.push(state, _)`: append and report success. -/
def stackPush {σ : Type} (s : SearchStack σ) (state : σ) (_cost : Nat) :
    Bool × SearchStack σ :=
  (true, ⟨s.stack ++ [state]⟩)

/-- `_Stack.pop`: the body runs `self._stack.pop()`, which removes the last
element, but the method never returns it — the caller receives `None`. -/
def stackPop {σ : Type} (s : SearchStack σ) : Option σ × SearchStack σ :=
  (none, ⟨(listPop s.stack).2⟩)

/-- `_Queue`. -/
structure SearchQueue (σ : Type) where
  queue : List σ

/-- `_Queue.push(state, _)`. -/
def queuePush {σ : Type} (s : SearchQueue σ) (state : σ) (_cost : Nat) :
    Bool × SearchQueue σ :=
  (true, ⟨s.queue ++ [state]⟩)

/-- `_Queue.pop`: runs `self._queue.popleft()` but, like `_Stack.pop`,
never returns the removed state — the caller receives `None`. -/
def queuePop {σ : Type} (s : SearchQueue σ) : Option σ × SearchQueue σ :=
  (none, ⟨(dequePopleft s.queue).2⟩)

/-- `_PriorityQueue`: the heap holds `(g + h, state)` entries; `_g_score`
is the dict of recorded g-scores; `_last_g_score` is the g-score of the
last popped state (`None` before the first pop). -/
structure PQueue (σ : Type) where
  heap : List (Nat × σ)
  gScore : σ → Option Nat
  lastG : Option Nat

/-- `_PriorityQueue.push`: before any pop the g-score is 0 and the push is
unconditionally accepted; afterwards `g = _last_g_score + cost`, rejected
(`False`, no mutation) when a recorded g-score `≤ g` exists for the state,
else recorded and pushed with key `g + heuristic(state)`. -/
def pqPush {σ : Type} [DecidableEq σ] (h : σ → Nat) (q : PQueue σ)
    (state : σ) (cost : Nat) : Bool × PQueue σ :=
  match q.lastG with
  | none =>
    (true, ⟨(0 + h state, state) :: q.heap,
      fun x => if x = state then some 0 else q.gScore x, q.lastG⟩)
  | some lg =>
    let g := lg + cost
    match q.gScore state with
    | some old =>
      if old ≤ g then (false, q)
      else (true, ⟨(g + h state, state) :: q.heap,
        fun x => if x = state then some g else q.gScore x, q.lastG⟩)
    | none =>
      (true, ⟨(g + h state, state) :: q.heap,
        fun x => if x = state then some g else q.gScore x, q.lastG⟩)

/-- `_PriorityQueue.pop`: `heappop` removes a minimal-key entry (the heap's
tie order on equal keys is irrelevant to the claims) and the popped state's
recorded g-score becomes `_last_g_score`. -/
def pqPop {σ : Type} [DecidableEq σ] (q : PQueue σ) :
    Option (σ × PQueue σ) :=
  match q.heap.argmin Prod.fst with
  | none => none
  | some e => some (e.2, ⟨q.heap.erase e, q.gScore, q.gScore e.2⟩)

/-! Concrete fixtures (from test_freecell.py and for counterexamples). -/

/-- The `test_within_tab` fixture `frozenset(['3H6C', '6S'])`:
column "3H6C" is `[6C, 3H]` (top first), column "6S" is `[6S]`. -/
def fixtureTab : Finset Col := {[⟨6, 2⟩, ⟨3, 1⟩], [⟨6, 3⟩]}

/-- The expected single `_within_tab` successor `{'3H', '6S', '6C'}`. -/
def fixtureResult : Finset Col := {[⟨3, 1⟩], [⟨6, 3⟩], [⟨6, 2⟩]}

/-- Home ranks with suit 0 (diamonds) at 2 and the rest empty: the 3 of
diamonds is then the next card needed on its suit's home pile. -/
def homeRank3Counterexample : Fin 4 → Nat := fun i => if i = 0 then 2 else 0

/-- A state whose tableau is the single column "KD": the king of diamonds
is the first card of its suit scanned in the column, with the per-suit
minimum still at its seed 13. -/
def kingState : BState := ⟨fun _ => 0, ∅, {[⟨13, 0⟩]}⟩

/-- A state with one ace home, no free cells and the single column "KD":
no card is auto-movable, and pulling the ace back off home is a legal
move. -/
def aceHomeState : BState := ⟨fun i => if i = 0 then 1 else 0, ∅, {[⟨13, 0⟩]}⟩

/-- The cards `_auto_neighbor` tests first: available cards (free cells
and column tops) that are next needed home. -/
def autoCandidates (s : BState) : Finset Card :=
  (s.free ∪ s.tab.image colTop) ∩ neededHome s.home

/-- "At least one card qualifies as auto-movable" for state `s`. -/
def autoQualifies (s : BState) : Prop :=
  (automaticCards s.home (autoCandidates s)).Nonempty

/-- A state one forced move from the goal: only the king of spades (suit 3)
remains, on the tableau. -/
def autoWitnessState : BState :=
  ⟨fun i => if i.val = 3 then 12 else 13, ∅, {[⟨13, 3⟩]}⟩

/-- One column per suit, king at the bottom and ace on top. -/
def suitCol (su : Fin 4) : Col := (List.range 13).map fun r => ⟨r + 1, su⟩

/-- A concrete valid deal: the four suit columns. -/
def dealState : BState :=
  ⟨fun _ => 0, ∅, {suitCol 0, suitCol 1, suitCol 2, suitCol 3}⟩


/-! Deck-accounting definitions used to state the reachability invariant. -/

/-- The multiset of cards on the home piles: rank `1 .. home[suit]` of each
suit. -/
def homeMS (home : Fin 4 → Nat) : Multiset Card :=
  ∑ su : Fin 4, (Multiset.range (home su)).map fun r => (⟨r + 1, su⟩ : Card)

/-- The multiset of cards in the tableau, with multiplicity. -/
def tabMS (tab : Finset Col) : Multiset Card :=
  ∑ col ∈ tab, (col : Multiset Card)

/-- All cards of a (home, free, tableau) triple. -/
def tripleMS (home : Fin 4 → Nat) (free : Finset Card) (tab : Finset Col) :
    Multiset Card :=
  homeMS home + free.val + tabMS tab

/-- The standard 52-card deck. -/
def fullDeck : Multiset Card := homeMS fun _ => 13

/-- A real card: rank between ace and king (the suit index is a `Fin 4`). -/
def Card.isReal (c : Card) : Prop := 1 ≤ c.rank ∧ c.rank ≤ 13

instance (c : Card) : Decidable c.isReal := by unfold Card.isReal; infer_instance

/-- Every real card occurs exactly once across home piles, free cells and
tableau, and nothing else occurs at all. -/
def DeckOK (home : Fin 4 → Nat) (free : Finset Card) (tab : Finset Col) : Prop :=
  ∀ c : Card, (tripleMS home free tab).count c = if c.isReal then 1 else 0

/-- All cards of a state. -/
def stateMS (s : BState) : Multiset Card := tripleMS s.home s.free s.tab

/-- The inductive invariant: full deck accounted for, at most 4 free
cells, at most 8 columns, and no empty column represented. -/
def StateInv (s : BState) : Prop :=
  DeckOK s.home s.free s.tab ∧ s.free.card ≤ 4 ∧ s.tab.card ≤ 8 ∧ [] ∉ s.tab

/-- "Card `c` appears in exactly one of home (rank ≤ home[suit]), the
free-cell set, or some tableau column" — the claim's phrasing, with the
tableau occurrence counted with multiplicity. -/
def appearsOnce (s : BState) (c : Card) : Prop :=
  (c.rank ≤ s.home c.suit ∧ c ∉ s.free ∧ (tabMS s.tab).count c = 0) ∨
  (¬c.rank ≤ s.home c.suit ∧ c ∈ s.free ∧ (tabMS s.tab).count c = 0) ∨
  (¬c.rank ≤ s.home c.suit ∧ c ∉ s.free ∧ (tabMS s.tab).count c = 1)

/-- The claimed invariant for reachable states. -/
def ClaimInv (s : BState) : Prop :=
  (∀ c : Card, c.isReal → appearsOnce s c) ∧
  s.free.card ≤ 4 ∧ s.tab.card ≤ 8 ∧ [] ∉ s.tab

/-- A valid initial state: all home piles empty, no free cells, the
columns a partition of the 52-card deck into at most 8 nonempty columns
(what `FreeCellProblem.__init__` builds from a full-deck layout). -/
def ValidInit (s : BState) : Prop :=
  s.home = (fun _ => 0) ∧ s.free = ∅ ∧ tabMS s.tab = fullDeck ∧
  s.tab.card ≤ 8 ∧ [] ∉ s.tab

/-- Reachability by repeated application of `neighbors`. -/
inductive Reachable : BState → BState → Prop
  | refl (s : BState) : Reachable s s
  | step {s t : BState} {p : BState × Nat} :
      Reachable s t → p ∈ neighbors t → Reachable s p.1

/-- The number of cards outside the home piles (each forced auto-play move
sends exactly one of them home). -/
def cardsOutside (free : Finset Card) (tab : Finset Col) : Nat :=
  free.card + Multiset.card (tabMS tab)

/-- `av_tab` is in sync with the tableau: its pairs are exactly the
columns with their top cards, and its keys are distinct. -/
def AvSync (av : List (Card × Col)) (tab : Finset Col) : Prop :=
  (∀ p : Card × Col, p ∈ av ↔ p.2 ∈ tab ∧ colTop p.2 = p.1) ∧
  (av.map Prod.fst).Nodup

/-- The loop invariant of `_auto_neighbor`. -/
def CtxInv (ctx : AutoCtx) : Prop :=
  DeckOK ctx.home ctx.free ctx.tab ∧ ctx.needed = neededHome ctx.home ∧
  AvSync ctx.av ctx.tab ∧ ctx.free.card ≤ 4 ∧ ctx.tab.card ≤ 8 ∧ [] ∉ ctx.tab

/-! ### Lemmas and claim theorems -/

theorem enum_coe {α : Type} [LinearOrder α] (s : Finset α) :
    (↑(enum s) : Multiset α) = s.val := by
  rcases s with ⟨m, hm⟩
  induction m using Quotient.inductionOn with
  | h l => exact Quot.sound (sortLE_perm l)

theorem mem_enum {α : Type} [LinearOrder α] {s : Finset α} {a : α} :
    a ∈ enum s ↔ a ∈ s := by
  rw [Finset.mem_def, ← enum_coe, Multiset.mem_coe]

theorem enum_nodup {α : Type} [LinearOrder α] (s : Finset α) :
    (enum s).Nodup := by
  have : (↑(enum s) : Multiset α).Nodup := by rw [enum_coe]; exact s.nodup
  exact Multiset.coe_nodup.1 this

theorem enum_eq_nil {α : Type} [LinearOrder α] {s : Finset α} :
    enum s = [] ↔ s = ∅ := by
  constructor
  · intro h
    refine Finset.eq_empty_of_forall_not_mem fun a ha => ?_
    have h2 : a ∈ enum s := mem_enum.2 ha
    simp [h] at h2
  · intro h
    subst h
    have : (↑(enum (∅ : Finset α)) : Multiset α) = 0 := enum_coe ∅
    exact (Multiset.coe_eq_zero _).1 this

/-- C8: on the fixture tableau {"3H6C", "6S"}, `_within_tab` yields exactly
the single successor {"3H", "6S", "6C"}; and in general a new-column move
is only ever produced from a source column with more than one card, so a
column's sole card is never moved to a new column. -/
theorem within_tab_fixture :
    withinTab fixtureTab (neededTabOf (avTabL fixtureTab)) (avTabL fixtureTab)
        = [fixtureResult] ∧
    (∀ (tab : Finset Col) (neededT : Nat × Bool → List Col)
      (av : List (Card × Col)) (t : Finset Col), t ∈ withinTab tab neededT av →
      (∃ p ∈ av, 1 < p.2.length ∧ tab.card < 8 ∧
        t = addCardToNewCol (removeCardFromCol tab p.2) p.1) ∨
      (∃ p ∈ av, ∃ toCol ∈ neededT p.1.type,
        t = addCardToCol (removeCardFromCol tab p.2) toCol p.1)) := by
  constructor
  · decide
  · intro tab neededT av t ht
    simp only [withinTab, List.mem_flatMap] at ht
    obtain ⟨p, hp, hmem⟩ := ht
    rw [List.mem_append] at hmem
    rcases hmem with hnew | hcol
    · left
      split_ifs at hnew with hc
      · rw [List.mem_singleton] at hnew
        exact ⟨p, hp, hc.1, hc.2, hnew⟩
      · simp at hnew
    · right
      rw [List.mem_map] at hcol
      obtain ⟨toCol, htc, rfl⟩ := hcol
      exact ⟨p, hp, toCol, htc, rfl⟩

theorem within_tab_fixture_witness :
    (∃ p ∈ avTabL fixtureTab, 1 < p.2.length ∧ fixtureTab.card < 8 ∧
      fixtureResult = addCardToNewCol (removeCardFromCol fixtureTab p.2) p.1) ∨
    (∃ p ∈ avTabL fixtureTab,
      ∃ toCol ∈ neededTabOf (avTabL fixtureTab) p.1.type,
      fixtureResult = addCardToCol (removeCardFromCol fixtureTab p.2) toCol p.1) :=
  within_tab_fixture.2 fixtureTab (neededTabOf (avTabL fixtureTab))
    (avTabL fixtureTab) fixtureResult (by decide)

/-- C3 counterexample: with only the 2 of diamonds home, the 3 of diamonds
is available and next needed on its suit's pile, yet `_automatic_cards`
does not classify it auto-movable (the opposite-color 2s are not home). -/
theorem automatic_rank3_counterexample :
    (⟨3, 0⟩ : Card) ∈ neededHome homeRank3Counterexample ∧
    (⟨3, 0⟩ : Card) ∈ ({⟨3, 0⟩} : Finset Card) ∧
    automaticCards homeRank3Counterexample {⟨3, 0⟩} = ∅ := by
  decide

/-- C3 amended: a rank-3 card among the tested cards is classified
auto-movable iff both opposite-colored suits' home piles are at rank ≥ 2
(the same-color sibling pile is not consulted). -/
theorem automatic_rank3_iff (home : Fin 4 → Nat) (cards : Finset Card)
    (c : Card) (h3 : c.rank = 3) :
    c ∈ automaticCards home cards ↔
      c ∈ cards ∧ ∀ o ∈ oppColor c.suit, 2 ≤ home o := by
  simp [automaticCards, Finset.mem_filter, h3]

theorem automatic_rank3_iff_witness :
    (⟨3, 0⟩ : Card) ∈ automaticCards (fun _ => 2) {⟨3, 0⟩} ↔
      (⟨3, 0⟩ : Card) ∈ ({⟨3, 0⟩} : Finset Card) ∧
        ∀ o ∈ oppColor (⟨3, 0⟩ : Card).suit, 2 ≤ (fun _ => (2 : Nat)) o :=
  automatic_rank3_iff (fun _ => 2) {⟨3, 0⟩} ⟨3, 0⟩ rfl

/-- C9 counterexample: on the single column "KD" the code's heuristic is 1
(the king's rank 13 is not strictly above the per-suit seed 13, so it
contributes 1), while the claim's "not below" (≥) reading gives 2. -/
theorem heuristic_spec_counterexample :
    heuristic kingState = 1 ∧ heuristicSpec kingState = 2 ∧
    heuristic kingState ≠ heuristicSpec kingState := by
  decide

theorem foldr_min_min (r b : Nat) (xs : List Nat) :
    xs.foldr min (min r b) = min r (xs.foldr min b) := by
  induction xs with
  | nil => rfl
  | cons a t ih => simp [List.foldr_cons, ih, min_left_comm]

theorem minRankOf_append (deeper : List Card) (c : Card) (su : Fin 4) :
    minRankOf (deeper ++ [c]) su =
      if c.suit = su then min (minRankOf deeper su) c.rank
      else minRankOf deeper su := by
  by_cases h : c.suit = su
  · have hf : List.filter (fun d => decide (d.suit = su)) [c] = [c] := by
      simp [h]
    simp only [minRankOf, List.filter_append, hf, List.map_append,
      List.map_cons, List.map_nil, List.foldr_append, List.foldr_cons,
      List.foldr_nil, if_pos h]
    rw [foldr_min_min]
    exact min_comm _ _
  · have hf : List.filter (fun d => decide (d.suit = su)) [c] = [] := by
      simp [h]
    simp only [minRankOf, List.filter_append, hf, List.map_append,
      List.map_nil, List.append_nil, if_neg h]

theorem heurCol_fold (l : List Card) (deeper : List Card) (mc : Fin 4 → Nat)
    (acc : Nat) (hmc : ∀ su, mc su = minRankOf deeper su) :
    (l.foldl
      (fun (a : (Fin 4 → Nat) × Nat) card =>
        if a.1 card.suit < card.rank then (a.1, a.2 + 2)
        else (Function.update a.1 card.suit card.rank, a.2 + 1)) (mc, acc)).2
      = acc + heurColMin deeper l := by
  induction l generalizing deeper mc acc with
  | nil => simp [heurColMin]
  | cons c rest ih =>
    simp only [List.foldl_cons, heurColMin]
    by_cases h : mc c.suit < c.rank
    · rw [if_pos h, if_pos ((hmc c.suit) ▸ h)]
      rw [ih (deeper ++ [c]) mc (acc + 2) ?_]
      · omega
      · intro su
        rw [minRankOf_append]
        by_cases hs : c.suit = su
        · rw [if_pos hs, ← hs, ← hmc c.suit]
          exact (min_eq_left (Nat.le_of_lt h)).symm
        · rw [if_neg hs]
          exact hmc su
    · rw [if_neg h, if_neg ((hmc c.suit) ▸ h)]
      rw [ih (deeper ++ [c]) (Function.update mc c.suit c.rank) (acc + 1) ?_]
      · omega
      · intro su
        rw [minRankOf_append]
        by_cases hs : c.suit = su
        · rw [if_pos hs, ← hs, Function.update_same, ← hmc c.suit]
          exact (min_eq_right (Nat.le_of_not_lt h)).symm
        · rw [if_neg hs, Function.update_noteq (Ne.symm hs)]
          exact hmc su

/-- C9 amended: the code's heuristic equals the occupied free-cell count
plus, per column scanned bottom-up, 2 for each card whose rank is strictly
above the minimum of 13 and the ranks of the same-suit cards deeper in the
column, and 1 otherwise. -/
theorem heuristic_amended_eq (s : BState) : heuristic s = heuristicAmended s := by
  unfold heuristic heuristicAmended
  congr 1
  refine Finset.sum_congr rfl fun col _ => ?_
  unfold heurCol
  have := heurCol_fold col.reverse [] (fun _ => 13) 0
    (fun su => by simp [minRankOf])
  simpa using this

/-- C1: `_Stack.pop` and `_Queue.pop` do remove a state (the underlying
`list.pop()` / `popleft()` would have returned the pushed state), but the
methods return `None` rather than the removed state, so the skeleton
goal-tests `None` instead of the popped state. -/
theorem stack_queue_pop_returns_none :
    (stackPop ((stackPush (⟨[]⟩ : SearchStack Nat) 7 0).2)).1 = none ∧
    (listPop ((stackPush (⟨[]⟩ : SearchStack Nat) 7 0).2.stack)).1 = some 7 ∧
    (stackPop ((stackPush (⟨[]⟩ : SearchStack Nat) 7 0).2)).2.stack = [] ∧
    (queuePop ((queuePush (⟨[]⟩ : SearchQueue Nat) 7 0).2)).1 = none ∧
    (dequePopleft ((queuePush (⟨[]⟩ : SearchQueue Nat) 7 0).2.queue)).1 = some 7 ∧
    (queuePop ((queuePush (⟨[]⟩ : SearchQueue Nat) 7 0).2)).2.queue = [] := by
  decide

/-- C5: the A* open-set push is rejected exactly when an equal-or-better
g-score was recorded for the state (no insertion, no update, `False`
returned), is accepted otherwise with the new g-score recorded and the
entry keyed by `g + h`, and the initial push (before any pop) is accepted
with `g = 0`. -/
theorem pq_push_spec {σ : Type} [DecidableEq σ] (h : σ → Nat) (q : PQueue σ)
    (st : σ) (cost : Nat) :
    (q.lastG = none → (pqPush h q st cost).1 = true ∧
      (pqPush h q st cost).2.gScore st = some 0 ∧
      (pqPush h q st cost).2.heap = (0 + h st, st) :: q.heap) ∧
    (∀ gp old, q.lastG = some gp → q.gScore st = some old → old ≤ gp + cost →
      pqPush h q st cost = (false, q)) ∧
    (∀ gp, q.lastG = some gp → (∀ old, q.gScore st = some old → gp + cost < old) →
      (pqPush h q st cost).1 = true ∧
      (pqPush h q st cost).2.gScore st = some (gp + cost) ∧
      (pqPush h q st cost).2.heap = (gp + cost + h st, st) :: q.heap) := by
  refine ⟨?_, ?_, ?_⟩
  · intro h0
    simp [pqPush, h0]
  · intro gp old hg ho hle
    simp [pqPush, hg, ho, hle]
  · intro gp hg hlt
    cases hsc : q.gScore st with
    | none => simp [pqPush, hg, hsc]
    | some old =>
      have hgt := hlt old hsc
      simp [pqPush, hg, hsc, Nat.not_le.2 hgt]

theorem pq_push_spec_witness :
    (pqPush (fun _ => 0) (⟨[], fun _ => none, none⟩ : PQueue Nat) 5 0).1 = true ∧
    (pqPush (fun _ => 0) (⟨[], fun _ => none, none⟩ : PQueue Nat) 5 0).2.gScore 5
      = some 0 ∧
    (pqPush (fun _ => 0) (⟨[], fun _ => none, none⟩ : PQueue Nat) 5 0).2.heap
      = (0 + (fun _ => 0) 5, 5) :: [] :=
  (pq_push_spec (fun _ => 0) ⟨[], fun _ => none, none⟩ 5 0).1 rfl

/-- C7: `move_description` checks new free-cell cards first, then
home-rank increases, then tableau changes (card onto an existing column,
then card in a brand-new singleton column), returns a description from the
first matching category, and when no category matches returns the error
value (the source raises `ValueError`) rather than any description. -/
theorem move_description_priority (fromS toS : BState) :
    (toHomeCardsOf fromS toS ≠ [] ↔ ∃ su, fromS.home su < toS.home su) ∧
    ((toS.free \ fromS.free).Nonempty →
      ∃ c ∈ toS.free \ fromS.free,
        moveDescription fromS toS = some (.toFreeCell c)) ∧
    (toS.free \ fromS.free = ∅ → toHomeCardsOf fromS toS ≠ [] →
      moveDescription fromS toS
        = some (.toHomeCells (toHomeCardsOf fromS toS))) ∧
    (toS.free \ fromS.free = ∅ → toHomeCardsOf fromS toS = [] →
      (∃ col ∈ toS.tab, col.tail ∈ fromS.tab) →
      ∃ col ∈ toS.tab, col.tail ∈ fromS.tab ∧
        moveDescription fromS toS
          = some (.ontoColumn (colTop col) (colTop col.tail))) ∧
    (toS.free \ fromS.free = ∅ → toHomeCardsOf fromS toS = [] →
      (∀ col ∈ toS.tab, col.tail ∉ fromS.tab) →
      (∃ col ∈ toS.tab, col.length = 1 ∧ col ∉ fromS.tab) →
      ∃ col ∈ toS.tab, (col.length = 1 ∧ col ∉ fromS.tab) ∧
        moveDescription fromS toS = some (.toNewColumn (colTop col))) ∧
    (moveDescription fromS toS = none ↔
      toS.free \ fromS.free = ∅ ∧ toHomeCardsOf fromS toS = [] ∧
      (∀ col ∈ toS.tab, col.tail ∉ fromS.tab) ∧
      (∀ col ∈ toS.tab, ¬(col.length = 1 ∧ col ∉ fromS.tab))) := by
  refine ⟨?_, ?_, ?_, ?_, ?_, ?_⟩
  · simp only [toHomeCardsOf, ne_eq, List.flatMap_eq_nil_iff, not_forall,
      List.map_eq_nil_iff, List.range'_eq_nil]
    constructor
    · rintro ⟨su, _, hlen⟩
      exact ⟨su, by omega⟩
    · rintro ⟨su, hlt⟩
      exact ⟨su, List.mem_finRange su, by omega⟩
  · intro hne
    have h1 : enum (toS.free \ fromS.free) ≠ [] := by
      rw [Ne, enum_eq_nil]
      exact Finset.nonempty_iff_ne_empty.1 hne
    cases h : enum (toS.free \ fromS.free) with
    | nil => exact absurd h h1
    | cons c rest =>
      refine ⟨c, mem_enum.1 (h ▸ List.mem_cons_self c rest), ?_⟩
      simp only [moveDescription, h]
  · intro hempty hhome
    simp only [moveDescription, enum_eq_nil.2 hempty, ne_eq, hhome,
      not_false_iff, if_pos]
  · intro hempty hhome hcol
    obtain ⟨col0, hc0, hct⟩ := hcol
    have hex : ∃ x ∈ enum toS.tab,
        (fun col => decide (col.tail ∈ fromS.tab)) x = true :=
      ⟨col0, mem_enum.2 hc0, by simpa using hct⟩
    obtain ⟨col, hfind⟩ :=
      Option.isSome_iff_exists.1 (List.find?_isSome.2 hex)
    refine ⟨col, mem_enum.1 (List.mem_of_find?_eq_some hfind),
      by simpa using List.find?_some hfind, ?_⟩
    simp only [moveDescription, enum_eq_nil.2 hempty, hhome, ne_eq,
      not_true_eq_false, if_neg, if_false, hfind]
  · intro hempty hhome hnone hcol
    have hfind1 : (enum toS.tab).find?
        (fun col => decide (col.tail ∈ fromS.tab)) = none := by
      rw [List.find?_eq_none]
      intro col hc
      simpa using hnone col (mem_enum.1 hc)
    obtain ⟨col0, hc0, hct⟩ := hcol
    have hex : ∃ x ∈ enum toS.tab,
        (fun col => decide (col.length = 1 ∧ col ∉ fromS.tab)) x = true :=
      ⟨col0, mem_enum.2 hc0, by simpa using hct⟩
    obtain ⟨col, hfind⟩ :=
      Option.isSome_iff_exists.1 (List.find?_isSome.2 hex)
    refine ⟨col, mem_enum.1 (List.mem_of_find?_eq_some hfind),
      by simpa using List.find?_some hfind, ?_⟩
    simp only [moveDescription, enum_eq_nil.2 hempty, hhome, ne_eq,
      not_true_eq_false, if_neg, if_false, hfind1, hfind]
  · constructor
    · intro hnone
      have hempty : toS.free \ fromS.free = ∅ := by
        by_contra hne
        obtain ⟨c, _, hsome⟩ :=
          (fun hne' => by
            cases h : enum (toS.free \ fromS.free) with
            | nil => exact absurd (enum_eq_nil.1 h) hne'
            | cons c rest =>
              exact ⟨c, mem_enum.1 (h ▸ List.mem_cons_self c rest),
                by simp only [moveDescription, h]⟩ :
            toS.free \ fromS.free ≠ ∅ →
              ∃ c ∈ toS.free \ fromS.free,
                moveDescription fromS toS = some (.toFreeCell c)) hne
        rw [hnone] at hsome
        exact Option.noConfusion hsome
      have hhome : toHomeCardsOf fromS toS = [] := by
        by_contra hne
        have hme : moveDescription fromS toS
            = some (.toHomeCells (toHomeCardsOf fromS toS)) := by
          simp only [moveDescription, enum_eq_nil.2 hempty, ne_eq, hne,
            not_false_iff, if_pos]
        rw [hnone] at hme
        exact Option.noConfusion hme
      refine ⟨hempty, hhome, ?_, ?_⟩
      · intro col hc hct
        simp only [moveDescription, enum_eq_nil.2 hempty, hhome, ne_eq,
          not_true_eq_false, if_neg, if_false] at hnone
        cases hfind : (enum toS.tab).find?
            (fun col => decide (col.tail ∈ fromS.tab)) with
        | some c => rw [hfind] at hnone; exact Option.noConfusion hnone
        | none =>
          have := List.find?_eq_none.1 hfind col (mem_enum.2 hc)
          simp at this
          exact this hct
      · intro col hc hct
        simp only [moveDescription, enum_eq_nil.2 hempty, hhome, ne_eq,
          not_true_eq_false, if_neg, if_false] at hnone
        cases hfind : (enum toS.tab).find?
            (fun col => decide (col.tail ∈ fromS.tab)) with
        | some c => rw [hfind] at hnone; exact Option.noConfusion hnone
        | none =>
          rw [hfind] at hnone
          cases hfind2 : (enum toS.tab).find?
              (fun col => decide (col.length = 1 ∧ col ∉ fromS.tab)) with
          | some c => rw [hfind2] at hnone; exact Option.noConfusion hnone
          | none =>
            have := List.find?_eq_none.1 hfind2 col (mem_enum.2 hc)
            simp at this
            exact hct.2 (this hct.1)
    · rintro ⟨hempty, hhome, hno1, hno2⟩
      have hfind1 : (enum toS.tab).find?
          (fun col => decide (col.tail ∈ fromS.tab)) = none := by
        rw [List.find?_eq_none]
        intro col hc
        simpa using hno1 col (mem_enum.1 hc)
      have hfind2 : (enum toS.tab).find?
          (fun col => decide (col.length = 1 ∧ col ∉ fromS.tab)) = none := by
        rw [List.find?_eq_none]
        intro col hc
        have := hno2 col (mem_enum.1 hc)
        simp only [decide_eq_true_eq]
        tauto
      simp only [moveDescription, enum_eq_nil.2 hempty, hhome, ne_eq,
        not_true_eq_false, if_neg, if_false, hfind1, hfind2]

theorem move_description_priority_witness :
    ∃ c ∈ ({⟨1, 0⟩} : Finset Card) \ (∅ : Finset Card),
      moveDescription ⟨fun _ => 0, ∅, ∅⟩ ⟨fun _ => 0, {⟨1, 0⟩}, ∅⟩
        = some (.toFreeCell c) :=
  (move_description_priority ⟨fun _ => 0, ∅, ∅⟩
    ⟨fun _ => 0, {⟨1, 0⟩}, ∅⟩).2.1 (by decide)

/-! ### Card-accounting lemmas -/

theorem count_homeMS (home : Fin 4 → Nat) (c : Card) :
    (homeMS home).count c =
      if 1 ≤ c.rank ∧ c.rank ≤ home c.suit then 1 else 0 := by
  unfold homeMS
  rw [Multiset.count_sum']
  rw [Finset.sum_eq_single c.suit]
  · rcases Nat.eq_zero_or_pos c.rank with h0 | hpos
    · rw [Multiset.count_eq_zero.2, if_neg (by omega)]
      intro hmem
      rw [Multiset.mem_map] at hmem
      obtain ⟨r, _, he⟩ := hmem
      have : c.rank = r + 1 := by rw [← he]
      omega
    · by_cases hmem : c.rank - 1 < home c.suit
      · have hcmem : c ∈ (Multiset.range (home c.suit)).map
            (fun r => (⟨r + 1, c.suit⟩ : Card)) := by
          rw [Multiset.mem_map]
          refine ⟨c.rank - 1, Multiset.mem_range.2 hmem, ?_⟩
          have h' : c.rank - 1 + 1 = c.rank := by omega
          rw [h']
        have hnd : ((Multiset.range (home c.suit)).map
            (fun r => (⟨r + 1, c.suit⟩ : Card))).Nodup := by
          refine (Multiset.nodup_range _).map fun a b hab => ?_
          have : a + 1 = b + 1 := congrArg Card.rank hab
          omega
        rw [Multiset.count_eq_one_of_mem hnd hcmem, if_pos ⟨hpos, by omega⟩]
      · rw [Multiset.count_eq_zero.2, if_neg (by omega)]
        intro hc
        rw [Multiset.mem_map] at hc
        obtain ⟨r, hr, he⟩ := hc
        have h1 : c.rank = r + 1 := by rw [← he]
        rw [Multiset.mem_range] at hr
        omega
  · intro b _ hb
    rw [Multiset.count_eq_zero]
    intro hmem
    rw [Multiset.mem_map] at hmem
    obtain ⟨r, _, he⟩ := hmem
    have : c.suit = b := by rw [← he]
    exact hb this.symm
  · intro hn
    exact absurd (Finset.mem_univ _) hn

theorem count_fullDeck (c : Card) :
    fullDeck.count c = if c.isReal then 1 else 0 := by
  unfold fullDeck Card.isReal
  rw [count_homeMS]

theorem tabMS_erase {tab : Finset Col} {col : Col} (h : col ∈ tab) :
    tabMS tab = (col : Multiset Card) + tabMS (tab.erase col) :=
  (Finset.add_sum_erase _ _ h).symm

theorem tabMS_insert {tab : Finset Col} {col : Col} (h : col ∉ tab) :
    tabMS (insert col tab) = (col : Multiset Card) + tabMS tab :=
  Finset.sum_insert h

theorem count_tabMS_ge {tab : Finset Col} {col : Col} (h : col ∈ tab)
    (x : Card) :
    (col : Multiset Card).count x ≤ (tabMS tab).count x := by
  rw [tabMS_erase h, Multiset.count_add]
  omega

theorem count_tripleMS (h : Fin 4 → Nat) (f : Finset Card) (t : Finset Col)
    (c : Card) :
    (tripleMS h f t).count c =
      (homeMS h).count c + f.val.count c + (tabMS t).count c := by
  simp [tripleMS, Multiset.count_add]

theorem mem_removeCardFromCol {tab : Finset Col} {col x : Col} :
    x ∈ removeCardFromCol tab col ↔
      x ∈ tab.erase col ∨ (col.tail ≠ [] ∧ x = col.tail) := by
  unfold removeCardFromCol
  split_ifs with h
  · simp [h]
  · rw [Finset.mem_insert]
    tauto

theorem mem_neededHome {home : Fin 4 → Nat} {c : Card} :
    c ∈ neededHome home ↔ home c.suit < 13 ∧ c.rank = home c.suit + 1 := by
  unfold neededHome
  rw [Finset.mem_image]
  constructor
  · rintro ⟨su, hsu, he⟩
    rw [Finset.mem_filter] at hsu
    have h1 : c.suit = su := by rw [← he]
    have h2 : c.rank = home su + 1 := by rw [← he]
    rw [h1]
    exact ⟨hsu.2, h2⟩
  · rintro ⟨h1, h2⟩
    refine ⟨c.suit, Finset.mem_filter.2 ⟨Finset.mem_univ _, h1⟩, ?_⟩
    cases c with | mk r s =>
    have h2' : r = home s + 1 := h2
    subst h2'
    rfl

theorem mem_avHome {home : Fin 4 → Nat} {c : Card} :
    c ∈ avHome home ↔ 0 < home c.suit ∧ c.rank = home c.suit := by
  unfold avHome
  rw [Finset.mem_image]
  constructor
  · rintro ⟨su, hsu, he⟩
    rw [Finset.mem_filter] at hsu
    have h1 : c.suit = su := by rw [← he]
    have h2 : c.rank = home su := by rw [← he]
    rw [h1]
    exact ⟨hsu.2, h2⟩
  · rintro ⟨h1, h2⟩
    refine ⟨c.suit, Finset.mem_filter.2 ⟨Finset.mem_univ _, h1⟩, ?_⟩
    cases c with | mk r s =>
    have h2' : r = home s := h2
    subst h2'
    rfl

theorem mem_avTabL {tab : Finset Col} {p : Card × Col} :
    p ∈ avTabL tab ↔ p.2 ∈ tab ∧ colTop p.2 = p.1 := by
  unfold avTabL
  rw [List.mem_map]
  constructor
  · rintro ⟨col, hc, he⟩
    have h2 : p.2 = col := by rw [← he]
    have h1 : p.1 = colTop col := by rw [← he]
    rw [h2, h1]
    exact ⟨mem_enum.1 hc, rfl⟩
  · rintro ⟨h1, h2⟩
    exact ⟨p.2, mem_enum.2 h1, by cases p; simp at h2 ⊢; exact h2⟩

theorem mem_neededTabOf {av : List (Card × Col)} {t : Nat × Bool} {col : Col} :
    col ∈ neededTabOf av t ↔
      ∃ p ∈ av, p.1.nextType = some t ∧ p.2 = col := by
  unfold neededTabOf
  rw [List.mem_map]
  constructor
  · rintro ⟨p, hp, he⟩
    rw [List.mem_filter] at hp
    exact ⟨p, hp.1, by simpa using hp.2, he⟩
  · rintro ⟨p, hp, ht, he⟩
    exact ⟨p, List.mem_filter.2 ⟨hp, by simpa using ht⟩, he⟩

/-! ### Consequences of the deck invariant -/

theorem deckOK_free_facts {h : Fin 4 → Nat} {f : Finset Card}
    {t : Finset Col} (hd : DeckOK h f t) {c : Card} (hc : c ∈ f) :
    (homeMS h).count c = 0 ∧ f.val.count c = 1 ∧ (tabMS t).count c = 0 ∧
      c.isReal := by
  have h1 := hd c
  rw [count_tripleMS] at h1
  have h2 : 1 ≤ f.val.count c := Multiset.one_le_count_iff_mem.2 hc
  by_cases hr : c.isReal
  · rw [if_pos hr] at h1
    exact ⟨by omega, by omega, by omega, hr⟩
  · rw [if_neg hr] at h1
    exact absurd h1 (by omega)

theorem deckOK_col_facts {h : Fin 4 → Nat} {f : Finset Card} {t : Finset Col}
    (hd : DeckOK h f t) {col : Col} (hcol : col ∈ t) {x : Card}
    (hx : x ∈ col) :
    (homeMS h).count x = 0 ∧ x ∉ f ∧ (col : Multiset Card).count x = 1 ∧
      (tabMS (t.erase col)).count x = 0 ∧ x.isReal := by
  have h1 := hd x
  rw [count_tripleMS, tabMS_erase hcol, Multiset.count_add] at h1
  have h2 : 1 ≤ (col : Multiset Card).count x :=
    Multiset.one_le_count_iff_mem.2 (Multiset.mem_coe.2 hx)
  by_cases hr : x.isReal
  · rw [if_pos hr] at h1
    refine ⟨by omega, ?_, by omega, by omega, hr⟩
    intro hmem
    have := Multiset.one_le_count_iff_mem.2 (Finset.mem_def.1 hmem)
    omega
  · rw [if_neg hr] at h1
    exact absurd h1 (by omega)

theorem deckOK_home_facts {h : Fin 4 → Nat} {f : Finset Card}
    {t : Finset Col} (hd : DeckOK h f t) {c : Card} (h1r : 1 ≤ c.rank)
    (hle : c.rank ≤ h c.suit) :
    c ∉ f ∧ (tabMS t).count c = 0 ∧ c.rank ≤ 13 := by
  have h1 := hd c
  rw [count_tripleMS, count_homeMS, if_pos ⟨h1r, hle⟩] at h1
  by_cases hr : c.isReal
  · rw [if_pos hr] at h1
    refine ⟨?_, by omega, hr.2⟩
    intro hmem
    have := Multiset.one_le_count_iff_mem.2 (Finset.mem_def.1 hmem)
    omega
  · rw [if_neg hr] at h1
    exact absurd h1 (by omega)

/-! ### Home-pile and set update lemmas -/

theorem homeMS_update_succ (home : Fin 4 → Nat) (su : Fin 4) :
    homeMS (Function.update home su (home su + 1)) =
      (⟨home su + 1, su⟩ : Card) ::ₘ homeMS home := by
  refine Multiset.ext' fun c => ?_
  rw [Multiset.count_cons, count_homeMS, count_homeMS]
  by_cases hsu : c.suit = su
  · rw [hsu, Function.update_same]
    by_cases heq : c = ⟨home su + 1, su⟩
    · have h1 : c.rank = home su + 1 := by rw [heq]
      rw [if_pos heq, if_pos ⟨by omega, by omega⟩, if_neg (by omega)]
    · have h1 : c.rank ≠ home su + 1 := by
        intro hr
        apply heq
        cases c with | mk r s =>
        have hs : s = su := hsu
        have hr' : r = home su + 1 := hr
        subst hs; subst hr'; rfl
      rw [if_neg heq]
      split_ifs <;> omega
  · have hne : c ≠ ⟨home su + 1, su⟩ := fun he => hsu (by rw [he])
    rw [Function.update_noteq hsu, if_neg hne]
    split_ifs <;> omega

theorem homeMS_update_pred (home : Fin 4 → Nat) (su : Fin 4)
    (hpos : 0 < home su) :
    homeMS home =
      (⟨home su, su⟩ : Card) ::ₘ
        homeMS (Function.update home su (home su - 1)) := by
  have h := homeMS_update_succ (Function.update home su (home su - 1)) su
  rw [Function.update_same, Function.update_idem] at h
  have hx : home su - 1 + 1 = home su := by omega
  rw [hx, Function.update_eq_self] at h
  exact h

theorem freeval_erase {f : Finset Card} {c : Card} (hc : c ∈ f) :
    f.val = c ::ₘ (f.erase c).val := by
  rw [Finset.erase_val]
  exact (Multiset.cons_erase (Finset.mem_def.1 hc)).symm

theorem freeval_insert {f : Finset Card} {c : Card} (hc : c ∉ f) :
    (insert c f).val = c ::ₘ f.val := by
  rw [Finset.insert_val]
  exact Multiset.ndinsert_of_not_mem (fun h => hc (Finset.mem_def.2 h))

theorem add_cons_shuffle (a : Card) (s t u : Multiset Card) :
    s + (a ::ₘ t) + u = a ::ₘ (s + t + u) := by
  rw [Multiset.add_cons, Multiset.cons_add]

theorem add_add_cons_shuffle (a : Card) (s t u : Multiset Card) :
    s + t + (a ::ₘ u) = a ::ₘ (s + t + u) := by
  rw [Multiset.add_cons]

theorem cons_add_add_shuffle (a : Card) (s t u : Multiset Card) :
    (a ::ₘ s) + t + u = a ::ₘ (s + t + u) := by
  rw [Multiset.cons_add, Multiset.cons_add]

/-! ### Tableau operation lemmas -/

theorem not_mem_tab_of_count_zero {t : Finset Col} {c : Card}
    (h0 : (tabMS t).count c = 0) {col : Col} (hc : c ∈ col) : col ∉ t := by
  intro hmem
  have h1 := count_tabMS_ge hmem c
  have h2 : 1 ≤ (col : Multiset Card).count c :=
    Multiset.one_le_count_iff_mem.2 (Multiset.mem_coe.2 hc)
  omega

theorem card_removeCardFromCol_le {t : Finset Col} {col : Col}
    (hcol : col ∈ t) : (removeCardFromCol t col).card ≤ t.card := by
  unfold removeCardFromCol
  have h1 : (t.erase col).card = t.card - 1 := Finset.card_erase_of_mem hcol
  have h2 : 1 ≤ t.card := Finset.card_pos.2 ⟨col, hcol⟩
  split_ifs
  · omega
  · have := Finset.card_insert_le col.tail (t.erase col)
    omega

theorem nil_not_mem_removeCardFromCol {t : Finset Col} {col : Col}
    (hnil : [] ∉ t) : [] ∉ removeCardFromCol t col := by
  rw [mem_removeCardFromCol]
  rintro (h | ⟨hne, he⟩)
  · exact hnil (Finset.mem_of_mem_erase h)
  · exact hne he.symm

theorem nil_not_mem_addCardToCol {t : Finset Col} {col : Col} {c : Card}
    (hnil : [] ∉ t) : [] ∉ addCardToCol t col c := by
  unfold addCardToCol
  rw [Finset.mem_insert]
  rintro (h | h)
  · exact List.noConfusion h
  · exact hnil (Finset.mem_of_mem_erase h)

theorem nil_not_mem_addCardToNewCol {t : Finset Col} {c : Card}
    (hnil : [] ∉ t) : [] ∉ addCardToNewCol t c := by
  unfold addCardToNewCol
  rw [Finset.mem_insert]
  rintro (h | h)
  · exact List.noConfusion h
  · exact hnil h

theorem card_addCardToNewCol {t : Finset Col} {c : Card} :
    (addCardToNewCol t c).card ≤ t.card + 1 :=
  Finset.card_insert_le _ _

theorem card_addCardToCol {t : Finset Col} {col : Col} {c : Card}
    (hcol : col ∈ t) : (addCardToCol t col c).card ≤ t.card := by
  unfold addCardToCol
  have h1 : (t.erase col).card = t.card - 1 := Finset.card_erase_of_mem hcol
  have h2 : 1 ≤ t.card := Finset.card_pos.2 ⟨col, hcol⟩
  have := Finset.card_insert_le (c :: col) (t.erase col)
  omega

theorem tabMS_removeCardFromCol {t : Finset Col} {col : Col} (hcol : col ∈ t)
    (hne : col ≠ [])
    (htail : col.tail ≠ [] → col.tail ∉ t.erase col) :
    tabMS t = colTop col ::ₘ tabMS (removeCardFromCol t col) := by
  have hcoe : (col : Multiset Card) = colTop col ::ₘ (col.tail : Multiset Card) := by
    cases col with
    | nil => exact absurd rfl hne
    | cons a l => rfl
  unfold removeCardFromCol
  split_ifs with h
  · rw [tabMS_erase hcol, hcoe, h]
    simp [Multiset.cons_add]
  · rw [tabMS_erase hcol, hcoe, tabMS_insert (htail h), Multiset.cons_add]

theorem tabMS_addCardToNewCol {t : Finset Col} {c : Card}
    (hnot : [c] ∉ t) : tabMS (addCardToNewCol t c) = c ::ₘ tabMS t := by
  unfold addCardToNewCol
  rw [tabMS_insert hnot]
  simp [Multiset.cons_add]

theorem tabMS_addCardToCol {t : Finset Col} {col : Col} {c : Card}
    (hcol : col ∈ t) (hnot : (c :: col) ∉ t.erase col) :
    tabMS (addCardToCol t col c) = c ::ₘ tabMS t := by
  unfold addCardToCol
  rw [tabMS_insert hnot, tabMS_erase hcol, ← Multiset.cons_coe,
    Multiset.cons_add]

theorem deckOK_congr {h h' : Fin 4 → Nat} {f f' : Finset Card}
    {t t' : Finset Col} (he : tripleMS h' f' t' = tripleMS h f t)
    (hd : DeckOK h f t) : DeckOK h' f' t' := by
  intro c
  rw [he]
  exact hd c

/-! ### Deck preservation for each move kind -/

theorem card_eta_rank {c : Card} {n : Nat} (h : c.rank = n) :
    (⟨n, c.suit⟩ : Card) = c := by
  cases c with | mk r s =>
  have h' : r = n := h
  subst h'
  rfl

theorem deckOK_free_to_home {h : Fin 4 → Nat} {f : Finset Card}
    {t : Finset Col} (hd : DeckOK h f t) {c : Card} (hcf : c ∈ f)
    (hcn : c ∈ neededHome h) :
    DeckOK (Function.update h c.suit c.rank) (f.erase c) t := by
  obtain ⟨hn13, hrank⟩ := mem_neededHome.1 hcn
  refine deckOK_congr ?_ hd
  unfold tripleMS
  rw [hrank, homeMS_update_succ, card_eta_rank hrank, freeval_erase hcf,
    cons_add_add_shuffle, add_cons_shuffle]

theorem deckOK_free_to_newcol {h : Fin 4 → Nat} {f : Finset Card}
    {t : Finset Col} (hd : DeckOK h f t) {c : Card} (hcf : c ∈ f) :
    DeckOK h (f.erase c) (addCardToNewCol t c) ∧ [c] ∉ t := by
  have hfacts := deckOK_free_facts hd hcf
  have hnot : [c] ∉ t :=
    not_mem_tab_of_count_zero hfacts.2.2.1 (List.mem_singleton_self c)
  refine ⟨deckOK_congr ?_ hd, hnot⟩
  unfold tripleMS
  rw [tabMS_addCardToNewCol hnot, freeval_erase hcf, add_add_cons_shuffle,
    add_cons_shuffle]

theorem deckOK_free_to_col {h : Fin 4 → Nat} {f : Finset Card}
    {t : Finset Col} (hd : DeckOK h f t) {c : Card} (hcf : c ∈ f)
    {col : Col} (hcol : col ∈ t) :
    DeckOK h (f.erase c) (addCardToCol t col c) ∧ (c :: col) ∉ t.erase col := by
  have hfacts := deckOK_free_facts hd hcf
  have h0 : (tabMS (t.erase col)).count c = 0 := by
    have h1 : (tabMS t).count c = 0 := hfacts.2.2.1
    rw [tabMS_erase hcol, Multiset.count_add] at h1
    omega
  have hnot : (c :: col) ∉ t.erase col :=
    not_mem_tab_of_count_zero h0 (List.mem_cons_self c col)
  refine ⟨deckOK_congr ?_ hd, hnot⟩
  unfold tripleMS
  rw [tabMS_addCardToCol hcol hnot, freeval_erase hcf, add_add_cons_shuffle,
    add_cons_shuffle]

theorem headI_mem {col : Col} (hne : col ≠ []) : col.headI ∈ col := by
  cases col with
  | nil => exact absurd rfl hne
  | cons a l => exact List.mem_cons_self a l

theorem top_remove_facts {h : Fin 4 → Nat} {f : Finset Card}
    {t : Finset Col} (hd : DeckOK h f t) {col : Col} (hcol : col ∈ t)
    (hne : col ≠ []) :
    tabMS t = colTop col ::ₘ tabMS (removeCardFromCol t col) ∧
    (tabMS (removeCardFromCol t col)).count (colTop col) = 0 ∧
    colTop col ∉ f ∧ (homeMS h).count (colTop col) = 0 := by
  have htop : colTop col ∈ col := headI_mem hne
  have hcolfacts := deckOK_col_facts hd hcol htop
  have htail : col.tail ≠ [] → col.tail ∉ t.erase col := by
    intro tne
    have hd2 : colTop col.tail ∈ col.tail := headI_mem tne
    have hd3 : colTop col.tail ∈ col := by
      cases col with
      | nil => exact absurd rfl hne
      | cons a l => exact List.mem_cons_of_mem a hd2
    have := deckOK_col_facts hd hcol hd3
    exact not_mem_tab_of_count_zero this.2.2.2.1 hd2
  have hms := tabMS_removeCardFromCol hcol hne htail
  refine ⟨hms, ?_, hcolfacts.2.1, hcolfacts.1⟩
  have h1 : (tabMS t).count (colTop col) = 1 := by
    rw [tabMS_erase hcol, Multiset.count_add, hcolfacts.2.2.1,
      hcolfacts.2.2.2.1]
  rw [hms, Multiset.count_cons_self] at h1
  omega

theorem deckOK_top_to_free {h : Fin 4 → Nat} {f : Finset Card}
    {t : Finset Col} (hd : DeckOK h f t) {col : Col} (hcol : col ∈ t)
    (hne : col ≠ []) :
    DeckOK h (insert (colTop col) f) (removeCardFromCol t col) ∧
      colTop col ∉ f := by
  obtain ⟨hms, _, hnf, _⟩ := top_remove_facts hd hcol hne
  refine ⟨deckOK_congr ?_ hd, hnf⟩
  unfold tripleMS
  rw [freeval_insert hnf, hms, add_cons_shuffle, add_add_cons_shuffle]

theorem deckOK_top_to_home {h : Fin 4 → Nat} {f : Finset Card}
    {t : Finset Col} (hd : DeckOK h f t) {col : Col} (hcol : col ∈ t)
    (hne : col ≠ []) (hcn : colTop col ∈ neededHome h) :
    DeckOK (Function.update h (colTop col).suit (colTop col).rank) f
      (removeCardFromCol t col) := by
  obtain ⟨hms, _, _, _⟩ := top_remove_facts hd hcol hne
  obtain ⟨hn13, hrank⟩ := mem_neededHome.1 hcn
  refine deckOK_congr ?_ hd
  unfold tripleMS
  rw [hrank, homeMS_update_succ, card_eta_rank hrank, hms,
    cons_add_add_shuffle, add_add_cons_shuffle]

theorem deckOK_home_to_free {h : Fin 4 → Nat} {f : Finset Card}
    {t : Finset Col} (hd : DeckOK h f t) {c : Card} (hc : c ∈ avHome h) :
    DeckOK (removeFromHome h c) (insert c f) t ∧ c ∉ f := by
  obtain ⟨hpos, hrank⟩ := mem_avHome.1 hc
  have hfacts := deckOK_home_facts hd (by omega) (le_of_eq hrank)
  have hsplit : homeMS h = c ::ₘ homeMS (removeFromHome h c) := by
    have h2 := homeMS_update_pred h c.suit hpos
    exact card_eta_rank hrank ▸ h2
  refine ⟨deckOK_congr ?_ hd, hfacts.1⟩
  unfold tripleMS
  rw [freeval_insert hfacts.1, hsplit, cons_add_add_shuffle,
    add_cons_shuffle]

theorem deckOK_home_to_newcol {h : Fin 4 → Nat} {f : Finset Card}
    {t : Finset Col} (hd : DeckOK h f t) {c : Card} (hc : c ∈ avHome h) :
    DeckOK (removeFromHome h c) f (addCardToNewCol t c) ∧ [c] ∉ t := by
  obtain ⟨hpos, hrank⟩ := mem_avHome.1 hc
  have hfacts := deckOK_home_facts hd (by omega) (le_of_eq hrank)
  have hnot : [c] ∉ t :=
    not_mem_tab_of_count_zero hfacts.2.1 (List.mem_singleton_self c)
  have hsplit : homeMS h = c ::ₘ homeMS (removeFromHome h c) := by
    have := homeMS_update_pred h c.suit hpos
    exact card_eta_rank hrank ▸ this
  refine ⟨deckOK_congr ?_ hd, hnot⟩
  unfold tripleMS
  rw [tabMS_addCardToNewCol hnot, hsplit, cons_add_add_shuffle,
    add_add_cons_shuffle]

theorem deckOK_home_to_col {h : Fin 4 → Nat} {f : Finset Card}
    {t : Finset Col} (hd : DeckOK h f t) {c : Card} (hc : c ∈ avHome h)
    {col : Col} (hcol : col ∈ t) :
    DeckOK (removeFromHome h c) f (addCardToCol t col c) ∧
      (c :: col) ∉ t.erase col := by
  obtain ⟨hpos, hrank⟩ := mem_avHome.1 hc
  have hfacts := deckOK_home_facts hd (by omega) (le_of_eq hrank)
  have h0 : (tabMS (t.erase col)).count c = 0 := by
    have h1 := hfacts.2.1
    rw [tabMS_erase hcol, Multiset.count_add] at h1
    omega
  have hnot : (c :: col) ∉ t.erase col :=
    not_mem_tab_of_count_zero h0 (List.mem_cons_self c col)
  have hsplit : homeMS h = c ::ₘ homeMS (removeFromHome h c) := by
    have := homeMS_update_pred h c.suit hpos
    exact card_eta_rank hrank ▸ this
  refine ⟨deckOK_congr ?_ hd, hnot⟩
  unfold tripleMS
  rw [tabMS_addCardToCol hcol hnot, hsplit, cons_add_add_shuffle,
    add_add_cons_shuffle]

theorem deckOK_within_newcol {h : Fin 4 → Nat} {f : Finset Card}
    {t : Finset Col} (hd : DeckOK h f t) {col : Col} (hcol : col ∈ t)
    (hne : col ≠ []) :
    DeckOK h f (addCardToNewCol (removeCardFromCol t col) (colTop col)) ∧
      [colTop col] ∉ removeCardFromCol t col := by
  obtain ⟨hms, hcnt, _, _⟩ := top_remove_facts hd hcol hne
  have hnot : [colTop col] ∉ removeCardFromCol t col :=
    not_mem_tab_of_count_zero hcnt (List.mem_singleton_self _)
  refine ⟨deckOK_congr ?_ hd, hnot⟩
  unfold tripleMS
  rw [tabMS_addCardToNewCol hnot, hms]

theorem deckOK_within_col {h : Fin 4 → Nat} {f : Finset Card}
    {t : Finset Col} (hd : DeckOK h f t) {col : Col} (hfrom : col ∈ t)
    (hne : col ≠ []) {toCol : Col} (hto : toCol ∈ t) (hnefromto : toCol ≠ col) :
    DeckOK h f (addCardToCol (removeCardFromCol t col) toCol (colTop col)) ∧
    toCol ∈ removeCardFromCol t col ∧
    (colTop col :: toCol) ∉ (removeCardFromCol t col).erase toCol := by
  obtain ⟨hms, hcnt, _, _⟩ := top_remove_facts hd hfrom hne
  have htoCol : toCol ∈ removeCardFromCol t col :=
    mem_removeCardFromCol.2 (Or.inl (Finset.mem_erase.2 ⟨hnefromto, hto⟩))
  have hnot : (colTop col :: toCol) ∉ (removeCardFromCol t col).erase toCol := by
    intro hmem
    have h2 := count_tabMS_ge (Finset.mem_of_mem_erase hmem) (colTop col)
    have h3 : 1 ≤ ((colTop col :: toCol : Col) : Multiset Card).count (colTop col) :=
      Multiset.one_le_count_iff_mem.2
        (Multiset.mem_coe.2 (List.mem_cons_self _ _))
    omega
  refine ⟨deckOK_congr ?_ hd, htoCol, hnot⟩
  unfold tripleMS
  rw [tabMS_addCardToCol htoCol hnot]
  rw [hms]

theorem nextType_some {c : Card} {ty : Nat × Bool} (h : c.nextType = some ty) :
    1 < c.rank ∧ ty = (c.rank - 1, !c.isRed) := by
  unfold Card.nextType at h
  split_ifs at h with h1
  exact ⟨h1, (Option.some.inj h).symm⟩

/-! ### Auto-play loop plumbing -/

theorem freeFold_len (l : List Card) (acc : AutoCtx × Nat) :
    (l.foldl freeStep acc).2 = acc.2 + l.length := by
  induction l generalizing acc with
  | nil => simp
  | cons c rest ih =>
    rw [List.foldl_cons, ih]
    simp [freeStep]
    omega

theorem tabStep_cases (acc : AutoCtx × Nat) (c : Card) :
    tabStep acc c = acc ∨ (tabStep acc c).2 = acc.2 + 1 := by
  cases h : acc.1.av.lookup c with
  | none => left; simp [tabStep, h]
  | some col => right; simp [tabStep, h]

theorem tabFold_mono (l : List Card) (acc : AutoCtx × Nat) :
    acc.2 ≤ (l.foldl tabStep acc).2 := by
  induction l generalizing acc with
  | nil => simp
  | cons c rest ih =>
    rw [List.foldl_cons]
    rcases tabStep_cases acc c with h | h
    · rw [h]
      exact ih acc
    · have := ih (tabStep acc c)
      omega

theorem tabFold_zero (l : List Card) (acc : AutoCtx × Nat)
    (h : (l.foldl tabStep acc).2 = acc.2) :
    (l.foldl tabStep acc).1 = acc.1 := by
  induction l generalizing acc with
  | nil => rfl
  | cons c rest ih =>
    rw [List.foldl_cons] at h ⊢
    rcases tabStep_cases acc c with hc | hc
    · rw [hc] at h ⊢
      exact ih acc h
    · exfalso
      have h1 := tabFold_mono rest (tabStep acc c)
      omega

theorem tabPass_mono (acc : AutoCtx × Nat) : acc.2 ≤ (tabPass acc).2 :=
  tabFold_mono _ acc

theorem tabPass_zero {acc : AutoCtx × Nat} (h : (tabPass acc).2 = acc.2) :
    (tabPass acc).1 = acc.1 :=
  tabFold_zero _ acc h

theorem autoPass_zero {ctx : AutoCtx} (h0 : (autoPass ctx).2 = 0) :
    (autoPass ctx).1 = ctx := by
  unfold autoPass at h0 ⊢
  have h1 := tabPass_mono (freePass ctx)
  have h2 : (freePass ctx).2 =
      (enum (automaticCards ctx.home (ctx.free ∩ ctx.needed))).length := by
    unfold freePass
    rw [freeFold_len]
    simp
  have h3 : enum (automaticCards ctx.home (ctx.free ∩ ctx.needed)) = [] :=
    List.length_eq_zero.1 (by omega)
  have h5 : freePass ctx = (ctx, 0) := by
    unfold freePass
    rw [h3]
    rfl
  rw [h5] at h0 ⊢
  exact tabPass_zero h0

theorem autoRun_cost_mono (fuel : Nat) (ctx : AutoCtx) (cost : Nat) :
    cost ≤ (autoRun fuel ctx cost).2.1 := by
  induction fuel generalizing ctx cost with
  | zero => simp [autoRun]
  | succ n ih =>
    rw [autoRun]
    split_ifs with h
    · exact le_rfl
    · have := ih (autoPass ctx).1 (cost + (autoPass ctx).2)
      omega

theorem autoRun_zero (fuel : Nat) (ctx : AutoCtx) (cost : Nat)
    (h : (autoRun fuel ctx cost).2.1 = 0) :
    (autoRun fuel ctx cost).1 = ctx := by
  cases fuel with
  | zero => rfl
  | succ n =>
    rw [autoRun] at h ⊢
    split_ifs at h ⊢ with hp
    · exact autoPass_zero hp
    · exfalso
      have := autoRun_cost_mono n (autoPass ctx).1 (cost + (autoPass ctx).2)
      omega

theorem autoNeighbor_fst (s : BState) :
    (autoNeighbor s).1 =
      if (autoRun autoFuel (initCtx s) 0).2.1 = 0 then none
      else some (⟨(autoRun autoFuel (initCtx s) 0).1.home,
        (autoRun autoFuel (initCtx s) 0).1.free,
        (autoRun autoFuel (initCtx s) 0).1.tab⟩,
        (autoRun autoFuel (initCtx s) 0).2.1) :=
  rfl

theorem autoNeighbor_snd (s : BState) :
    (autoNeighbor s).2 = (autoRun autoFuel (initCtx s) 0).1 :=
  rfl

theorem neighbors_eq (s : BState) :
    neighbors s =
      match (autoNeighbor s).1 with
      | some p => [p]
      | none => (genMovesCtx s (autoNeighbor s).2).map fun st => (st, 1) :=
  rfl

theorem autoNone_ctx {s : BState} (h : (autoNeighbor s).1 = none) :
    (autoNeighbor s).2 = initCtx s := by
  have hcost : (autoRun autoFuel (initCtx s) 0).2.1 = 0 := by
    by_contra hne
    rw [autoNeighbor_fst, if_neg hne] at h
    exact Option.noConfusion h
  rw [autoNeighbor_snd]
  exact autoRun_zero _ _ _ hcost

theorem neighbors_of_auto_none {s : BState} (h : (autoNeighbor s).1 = none) :
    neighbors s = (genMovesCtx s (initCtx s)).map fun st => (st, 1) := by
  rw [neighbors_eq, h, autoNone_ctx h]

/-- C10: when `_auto_neighbor` returns `None`, the mutable context it was
handed — `needed_home`, `free` and `av_tab` (and the tableau) — is exactly
as passed in, so the general enumeration in `neighbors` operates on the
unmodified sets of the current state. -/
theorem auto_none_ctx_unchanged (s : BState)
    (h : (autoNeighbor s).1 = none) :
    (autoNeighbor s).2 = initCtx s ∧
    (autoNeighbor s).2.needed = neededHome s.home ∧
    (autoNeighbor s).2.free = s.free ∧
    (autoNeighbor s).2.av = avTabL s.tab ∧
    neighbors s = (genMovesCtx s (initCtx s)).map fun st => (st, 1) := by
  have h2 := autoNone_ctx h
  exact ⟨h2, by rw [h2]; rfl, by rw [h2]; rfl, by rw [h2]; rfl,
    neighbors_of_auto_none h⟩

theorem auto_none_ctx_unchanged_witness :
    (autoNeighbor aceHomeState).2 = initCtx aceHomeState ∧
    (autoNeighbor aceHomeState).2.needed = neededHome aceHomeState.home ∧
    (autoNeighbor aceHomeState).2.free = aceHomeState.free ∧
    (autoNeighbor aceHomeState).2.av = avTabL aceHomeState.tab ∧
    neighbors aceHomeState
      = (genMovesCtx aceHomeState (initCtx aceHomeState)).map fun st => (st, 1) :=
  auto_none_ctx_unchanged aceHomeState (by decide)

/-! ### Decomposition of the generated move list -/

theorem mem_toTab {tab : Finset Col} {neededT : Nat × Bool → List Col}
    {card : Card} {nt : Finset Col} (h : nt ∈ toTab tab neededT card) :
    (tab.card < 8 ∧ nt = addCardToNewCol tab card) ∨
    (∃ col ∈ neededT card.type, nt = addCardToCol tab col card) := by
  unfold toTab at h
  rw [List.mem_append] at h
  rcases h with h | h
  · split_ifs at h with hc
    · rw [List.mem_singleton] at h
      exact Or.inl ⟨hc, h⟩
    · simp at h
  · rw [List.mem_map] at h
    obtain ⟨col, hcol, he⟩ := h
    exact Or.inr ⟨col, hcol, he.symm⟩

theorem mem_withinTab {tab : Finset Col} {neededT : Nat × Bool → List Col}
    {av : List (Card × Col)} {nt : Finset Col}
    (h : nt ∈ withinTab tab neededT av) :
    (∃ p ∈ av, 1 < p.2.length ∧ tab.card < 8 ∧
      nt = addCardToNewCol (removeCardFromCol tab p.2) p.1) ∨
    (∃ p ∈ av, ∃ toCol ∈ neededT p.1.type,
      nt = addCardToCol (removeCardFromCol tab p.2) toCol p.1) := by
  unfold withinTab at h
  rw [List.mem_flatMap] at h
  obtain ⟨p, hp, hmem⟩ := h
  rw [List.mem_append] at hmem
  rcases hmem with hnew | hcol
  · split_ifs at hnew with hc
    · rw [List.mem_singleton] at hnew
      exact Or.inl ⟨p, hp, hc.1, hc.2, hnew⟩
    · simp at hnew
  · rw [List.mem_map] at hcol
    obtain ⟨toCol, htc, he⟩ := hcol
    exact Or.inr ⟨p, hp, toCol, htc, he.symm⟩

theorem mem_neededTabOf_avTabL {tab : Finset Col} {ty : Nat × Bool}
    {col : Col} (h : col ∈ neededTabOf (avTabL tab) ty) :
    col ∈ tab ∧ (colTop col).nextType = some ty := by
  obtain ⟨p, hp, hnt, he⟩ := mem_neededTabOf.1 h
  obtain ⟨hmem, htop⟩ := mem_avTabL.1 hp
  subst he
  rw [htop]
  exact ⟨hmem, hnt⟩

theorem mem_genMovesCtx {s : BState} {ctx : AutoCtx} {st : BState}
    (h : st ∈ genMovesCtx s ctx) :
    (∃ card ∈ ctx.free, ∃ nt ∈ toTab s.tab (neededTabOf ctx.av) card,
      st = ⟨s.home, removeCardFromFree s.free card, nt⟩) ∨
    (∃ card ∈ ctx.free, ∃ nh, toHome s.home ctx.needed card = some nh ∧
      st = ⟨nh, removeCardFromFree s.free card, s.tab⟩) ∨
    (∃ nt ∈ withinTab s.tab (neededTabOf ctx.av) ctx.av,
      st = ⟨s.home, s.free, nt⟩) ∨
    (s.free.card < 4 ∧ ∃ p ∈ ctx.av,
      st = ⟨s.home, addCardToFree s.free p.1, removeCardFromCol s.tab p.2⟩) ∨
    (∃ p ∈ ctx.av, ∃ nh, toHome s.home ctx.needed p.1 = some nh ∧
      st = ⟨nh, s.free, removeCardFromCol s.tab p.2⟩) ∨
    (∃ card ∈ avHome s.home, s.free.card < 4 ∧
      st = ⟨removeFromHome s.home card, addCardToFree s.free card, s.tab⟩) ∨
    (∃ card ∈ avHome s.home, ∃ nt ∈ toTab s.tab (neededTabOf ctx.av) card,
      st = ⟨removeFromHome s.home card, s.free, nt⟩) := by
  simp only [genMovesCtx, List.mem_append] at h
  rcases h with (((h | h) | h) | h) | h
  · rw [List.mem_flatMap] at h
    obtain ⟨card, hcard, hin⟩ := h
    rw [List.mem_append] at hin
    rcases hin with hin | hin
    · rw [List.mem_map] at hin
      obtain ⟨nt, hnt, he⟩ := hin
      exact Or.inl ⟨card, mem_enum.1 hcard, nt, hnt, he.symm⟩
    · cases hth : toHome s.home ctx.needed card with
      | none => rw [hth] at hin; simp at hin
      | some nh =>
        rw [hth] at hin
        rw [List.mem_singleton] at hin
        exact Or.inr (Or.inl ⟨card, mem_enum.1 hcard, nh, hth, hin⟩)
  · rw [List.mem_map] at h
    obtain ⟨nt, hnt, he⟩ := h
    exact Or.inr (Or.inr (Or.inl ⟨nt, hnt, he.symm⟩))
  · split_ifs at h with hfc
    · rw [List.mem_map] at h
      obtain ⟨p, hp, he⟩ := h
      exact Or.inr (Or.inr (Or.inr (Or.inl ⟨hfc, p, hp, he.symm⟩)))
    · simp at h
  · rw [List.mem_flatMap] at h
    obtain ⟨p, hp, hin⟩ := h
    cases hth : toHome s.home ctx.needed p.1 with
    | none => rw [hth] at hin; simp at hin
    | some nh =>
      rw [hth] at hin
      rw [List.mem_singleton] at hin
      exact Or.inr (Or.inr (Or.inr (Or.inr (Or.inl ⟨p, hp, nh, hth, hin⟩))))
  · rw [List.mem_flatMap] at h
    obtain ⟨card, hcard, hin⟩ := h
    rw [List.mem_append] at hin
    rcases hin with hin | hin
    · split_ifs at hin with hfc
      · rw [List.mem_singleton] at hin
        exact Or.inr (Or.inr (Or.inr (Or.inr (Or.inr (Or.inl
          ⟨card, mem_enum.1 hcard, hfc, hin⟩)))))
      · simp at hin
    · rw [List.mem_map] at hin
      obtain ⟨nt, hnt, he⟩ := hin
      exact Or.inr (Or.inr (Or.inr (Or.inr (Or.inr (Or.inr
        ⟨card, mem_enum.1 hcard, nt, hnt, he.symm⟩)))))

/-! ### Home ranks along the auto-play loop -/

theorem moveHome_home (card : Card) (needed : Finset Card)
    (home : Fin 4 → Nat) :
    (moveHome card needed home).2 =
      Function.update home card.suit (home card.suit + 1) :=
  rfl

theorem moveHome_home_le (card : Card) (needed : Finset Card)
    (home : Fin 4 → Nat) (i : Fin 4) :
    home i ≤ (moveHome card needed home).2 i := by
  rw [moveHome_home]
  by_cases hi : i = card.suit
  · subst hi
    rw [Function.update_same]
    omega
  · rw [Function.update_noteq hi]

theorem freeStep_home_le (acc : AutoCtx × Nat) (c : Card) (i : Fin 4) :
    acc.1.home i ≤ (freeStep acc c).1.home i :=
  moveHome_home_le c acc.1.needed acc.1.home i

theorem tabStep_home_le (acc : AutoCtx × Nat) (c : Card) (i : Fin 4) :
    acc.1.home i ≤ (tabStep acc c).1.home i := by
  cases h : acc.1.av.lookup c with
  | none => simp [tabStep, h]
  | some col =>
    have h2 : (tabStep acc c).1.home = (moveHome c acc.1.needed acc.1.home).2 := by
      simp [tabStep, h]
    rw [h2]
    exact moveHome_home_le c acc.1.needed acc.1.home i

theorem freeFold_home_le (l : List Card) (acc : AutoCtx × Nat) (i : Fin 4) :
    acc.1.home i ≤ (l.foldl freeStep acc).1.home i := by
  induction l generalizing acc with
  | nil => exact le_rfl
  | cons c rest ih =>
    rw [List.foldl_cons]
    exact le_trans (freeStep_home_le acc c i) (ih (freeStep acc c))

theorem tabFold_home_le (l : List Card) (acc : AutoCtx × Nat) (i : Fin 4) :
    acc.1.home i ≤ (l.foldl tabStep acc).1.home i := by
  induction l generalizing acc with
  | nil => exact le_rfl
  | cons c rest ih =>
    rw [List.foldl_cons]
    exact le_trans (tabStep_home_le acc c i) (ih (tabStep acc c))

theorem autoPass_home_le (ctx : AutoCtx) (i : Fin 4) :
    ctx.home i ≤ (autoPass ctx).1.home i := by
  unfold autoPass tabPass freePass
  exact le_trans (freeFold_home_le _ (ctx, 0) i) (tabFold_home_le _ _ i)

theorem autoRun_home_le (fuel : Nat) (ctx : AutoCtx) (cost : Nat) (i : Fin 4) :
    ctx.home i ≤ (autoRun fuel ctx cost).1.home i := by
  induction fuel generalizing ctx cost with
  | zero => exact le_rfl
  | succ n ih =>
    rw [autoRun]
    split_ifs with h
    · exact autoPass_home_le ctx i
    · exact le_trans (autoPass_home_le ctx i) (ih (autoPass ctx).1 _)

/-- C4 counterexample: with the ace of diamonds home, `neighbors` contains
the "From home" successor that pulls it back to a free cell, decreasing
the diamonds home rank from 1 to 0. -/
theorem home_decrease_counterexample :
    ((⟨removeFromHome aceHomeState.home ⟨1, 0⟩, {⟨1, 0⟩}, {[⟨13, 0⟩]}⟩, 1)
        : BState × Nat) ∈ neighbors aceHomeState ∧
    (⟨removeFromHome aceHomeState.home ⟨1, 0⟩, {⟨1, 0⟩}, {[⟨13, 0⟩]}⟩
        : BState).home 0 < aceHomeState.home 0 := by
  decide

/-- C4 amended: along every edge produced by `neighbors`, each suit's home
rank either does not decrease, or (for the "From home" move category)
decreases by exactly one while every other suit's rank does not decrease. -/
theorem home_rank_change (s : BState) (p : BState × Nat)
    (hp : p ∈ neighbors s) (i : Fin 4) :
    s.home i ≤ p.1.home i ∨
    (p.1.home i + 1 = s.home i ∧ ∀ j, j ≠ i → s.home j ≤ p.1.home j) := by
  rw [neighbors_eq] at hp
  cases hauto : (autoNeighbor s).1 with
  | some q =>
    rw [hauto, List.mem_singleton] at hp
    subst hp
    left
    rw [autoNeighbor_fst] at hauto
    split_ifs at hauto
    have hx := Option.some.inj hauto
    rw [← hx]
    exact autoRun_home_le autoFuel (initCtx s) 0 i
  | none =>
    rw [hauto, autoNone_ctx hauto] at hp
    obtain ⟨st, hst, he⟩ := List.mem_map.1 hp
    have hp1 : p.1 = st := by rw [← he]
    rw [hp1]
    rcases mem_genMovesCtx hst with h | h | h | h | h | h | h
    · obtain ⟨card, _, nt, _, rfl⟩ := h
      exact Or.inl le_rfl
    · obtain ⟨card, _, nh, hth, rfl⟩ := h
      left
      unfold toHome at hth
      split_ifs at hth with hcn
      obtain ⟨h13, hrank⟩ := mem_neededHome.1 hcn
      dsimp only
      rw [← Option.some.inj hth]
      by_cases hi : i = card.suit
      · subst hi
        rw [Function.update_same]
        omega
      · rw [Function.update_noteq hi]
    · obtain ⟨nt, _, rfl⟩ := h
      exact Or.inl le_rfl
    · obtain ⟨_, q, _, rfl⟩ := h
      exact Or.inl le_rfl
    · obtain ⟨q, _, nh, hth, rfl⟩ := h
      left
      unfold toHome at hth
      split_ifs at hth with hcn
      obtain ⟨h13, hrank⟩ := mem_neededHome.1 hcn
      dsimp only
      rw [← Option.some.inj hth]
      by_cases hi : i = q.1.suit
      · subst hi
        rw [Function.update_same]
        omega
      · rw [Function.update_noteq hi]
    · obtain ⟨card, hav, _, rfl⟩ := h
      obtain ⟨hpos, hrank⟩ := mem_avHome.1 hav
      dsimp only
      unfold removeFromHome
      by_cases hi : i = card.suit
      · subst hi
        right
        rw [Function.update_same]
        refine ⟨by omega, fun j hj => ?_⟩
        rw [Function.update_noteq hj]
      · left
        rw [Function.update_noteq hi]
    · obtain ⟨card, hav, nt, _, rfl⟩ := h
      obtain ⟨hpos, hrank⟩ := mem_avHome.1 hav
      dsimp only
      unfold removeFromHome
      by_cases hi : i = card.suit
      · subst hi
        right
        rw [Function.update_same]
        refine ⟨by omega, fun j hj => ?_⟩
        rw [Function.update_noteq hj]
      · left
        rw [Function.update_noteq hi]

theorem home_rank_change_witness :
    aceHomeState.home 0
        ≤ ((⟨removeFromHome aceHomeState.home ⟨1, 0⟩, {⟨1, 0⟩}, {[⟨13, 0⟩]}⟩, 1)
          : BState × Nat).1.home 0 ∨
    (((⟨removeFromHome aceHomeState.home ⟨1, 0⟩, {⟨1, 0⟩}, {[⟨13, 0⟩]}⟩, 1)
          : BState × Nat).1.home 0 + 1 = aceHomeState.home 0 ∧
      ∀ j, j ≠ 0 →
        aceHomeState.home j
          ≤ ((⟨removeFromHome aceHomeState.home ⟨1, 0⟩, {⟨1, 0⟩},
              {[⟨13, 0⟩]}⟩, 1) : BState × Nat).1.home j) :=
  home_rank_change aceHomeState
    ⟨⟨removeFromHome aceHomeState.home ⟨1, 0⟩, {⟨1, 0⟩}, {[⟨13, 0⟩]}⟩, 1⟩
    (by decide) 0

/-! ### Auto-play loop invariant: basic facts -/

theorem card_eq_mk_iff {x : Card} {a : Nat} {b : Fin 4} :
    x = ⟨a, b⟩ ↔ x.rank = a ∧ x.suit = b := by
  constructor
  · intro h
    rw [h]
    exact ⟨rfl, rfl⟩
  · rintro ⟨h1, h2⟩
    cases x with | mk r s =>
    have h1' : r = a := h1
    have h2' : s = b := h2
    subst h1'
    subst h2'
    rfl

theorem mem_automaticCards {home : Fin 4 → Nat} {cards : Finset Card}
    {c : Card} :
    c ∈ automaticCards home cards ↔
      c ∈ cards ∧ (c.rank ≤ 2 ∨
        ((∀ o ∈ oppColor c.suit, c.rank - 1 ≤ home o) ∧
          (c.rank = 3 ∨ c.rank - 2 ≤ home (siblingSuit c.suit)))) := by
  unfold automaticCards
  rw [Finset.mem_filter]

theorem automaticCards_subset (home : Fin 4 → Nat) (cards : Finset Card) :
    automaticCards home cards ⊆ cards :=
  Finset.filter_subset _ _

theorem lookup_eq_some_mem {av : List (Card × Col)} {c : Card} {col : Col}
    (h : av.lookup c = some col) : (c, col) ∈ av := by
  induction av with
  | nil => simp [List.lookup] at h
  | cons p t ih =>
    rw [List.lookup] at h
    cases hbeq : (c == p.1) with
    | true =>
      rw [hbeq] at h
      have hc : c = p.1 := by simpa using hbeq
      have hcol : p.2 = col := by simpa using h
      have hpe : p = (c, col) := by
        cases p
        simp_all
      rw [hpe]
      exact List.mem_cons_self _ _
    | false =>
      rw [hbeq] at h
      exact List.mem_cons_of_mem _ (ih h)

theorem lookup_isSome_iff {av : List (Card × Col)} {c : Card} :
    (av.lookup c).isSome ↔ ∃ col, (c, col) ∈ av := by
  constructor
  · intro h
    obtain ⟨col, hcol⟩ := Option.isSome_iff_exists.1 h
    exact ⟨col, lookup_eq_some_mem hcol⟩
  · rintro ⟨col, hmem⟩
    induction av with
    | nil => simp at hmem
    | cons p t ih =>
      rw [List.lookup]
      cases hbeq : (c == p.1) with
      | true => rfl
      | false =>
        have hc : ¬c = p.1 := by simpa using hbeq
        rcases List.mem_cons.1 hmem with he | hm
        · exact absurd (congrArg Prod.fst he) hc
        · exact ih hm

theorem lookup_filter_isSome {av : List (Card × Col)} {c x : Card}
    (hx : x ≠ c) :
    ((av.filter fun p => p.1 ≠ c).lookup x).isSome ↔ (av.lookup x).isSome := by
  rw [lookup_isSome_iff, lookup_isSome_iff]
  constructor
  · rintro ⟨col, hmem⟩
    exact ⟨col, (List.mem_filter.1 hmem).1⟩
  · rintro ⟨col, hmem⟩
    exact ⟨col, List.mem_filter.2 ⟨hmem, by simpa using hx⟩⟩

theorem card_ext {x y : Card} (h1 : x.rank = y.rank) (h2 : x.suit = y.suit) :
    x = y := by
  cases x with | mk a b =>
  cases y with | mk a2 b2 =>
  have h1' : a = a2 := h1
  have h2' : b = b2 := h2
  subst h1'
  subst h2'
  rfl

theorem moveHome_needed {home : Fin 4 → Nat} {c : Card}
    (hcn : c ∈ neededHome home) :
    (moveHome c (neededHome home) home).1 =
      neededHome (Function.update home c.suit (home c.suit + 1)) := by
  obtain ⟨h13, hrank⟩ := mem_neededHome.1 hcn
  unfold moveHome
  ext x
  have hupdate : Function.update home c.suit (home c.suit + 1) x.suit
      = if x.suit = c.suit then home c.suit + 1 else home x.suit := by
    by_cases hsu : x.suit = c.suit
    · rw [if_pos hsu, hsu, Function.update_same]
    · rw [if_neg hsu, Function.update_noteq hsu]
  have hrhs : x ∈ neededHome (Function.update home c.suit (home c.suit + 1)) ↔
      (if x.suit = c.suit then home c.suit + 1 else home x.suit) < 13 ∧
      x.rank = (if x.suit = c.suit then home c.suit + 1 else home x.suit) + 1 := by
    rw [mem_neededHome, hupdate]
  have hnext : (x = c.nextInRank) ↔ (x.rank = c.rank + 1 ∧ x.suit = c.suit) :=
    card_eq_mk_iff
  by_cases hlt : c.rank < 13
  · rw [if_pos hlt, Finset.mem_insert, Finset.mem_erase, mem_neededHome,
      hnext, hrhs]
    by_cases hsu : x.suit = c.suit
    · simp only [if_pos hsu]
      constructor
      · rintro (⟨h1, h2⟩ | ⟨hne, h3, h4⟩)
        · exact ⟨by omega, by omega⟩
        · rw [hsu] at h3 h4
          exact absurd (card_ext (by omega) hsu) hne
      · rintro ⟨h1, h2⟩
        exact Or.inl ⟨by omega, hsu⟩
    · simp only [if_neg hsu]
      constructor
      · rintro (⟨h1, h2⟩ | ⟨hne, h3, h4⟩)
        · exact absurd h2 hsu
        · exact ⟨h3, h4⟩
      · rintro ⟨h1, h2⟩
        exact Or.inr ⟨fun hh => hsu (by rw [hh]), h1, h2⟩
  · rw [if_neg hlt, Finset.mem_erase, mem_neededHome, hrhs]
    by_cases hsu : x.suit = c.suit
    · simp only [if_pos hsu]
      constructor
      · rintro ⟨hne, h3, h4⟩
        rw [hsu] at h3 h4
        exact absurd (card_ext (by omega) hsu) hne
      · rintro ⟨h1, h2⟩
        exact absurd h1 (by omega)
    · simp only [if_neg hsu]
      constructor
      · rintro ⟨hne, h3, h4⟩
        exact ⟨h3, h4⟩
      · rintro ⟨h1, h2⟩
        exact ⟨fun hh => hsu (by rw [hh]), h1, h2⟩

/-! ### Deck bridges and measure bounds -/

theorem deckOK_iff {h : Fin 4 → Nat} {f : Finset Card} {t : Finset Col} :
    DeckOK h f t ↔ tripleMS h f t = fullDeck := by
  constructor
  · intro hd
    refine Multiset.ext' fun c => ?_
    rw [hd c, count_fullDeck]
  · intro he c
    rw [he, count_fullDeck]

theorem fullDeck_card : Multiset.card fullDeck = 52 := by decide

theorem cardsOutside_le {h : Fin 4 → Nat} {f : Finset Card} {t : Finset Col}
    (hd : DeckOK h f t) : cardsOutside f t ≤ 52 := by
  have he := deckOK_iff.1 hd
  have hc : Multiset.card (tripleMS h f t) = 52 := by rw [he, fullDeck_card]
  unfold tripleMS at hc
  rw [Multiset.card_add, Multiset.card_add] at hc
  unfold cardsOutside
  have : f.card = Multiset.card f.val := rfl
  omega

theorem tail_ne_nil_iff {col : Col} (hne : col ≠ []) :
    col.tail ≠ [] ↔ 1 < col.length := by
  cases col with
  | nil => exact absurd rfl hne
  | cons a l => cases l <;> simp

/-! ### Step preservation of the loop invariant -/

theorem freeStep_inv {acc : AutoCtx × Nat} {c : Card} (hinv : CtxInv acc.1)
    (hcf : c ∈ acc.1.free) (hcn : c ∈ acc.1.needed) :
    CtxInv (freeStep acc c).1 ∧
    cardsOutside (freeStep acc c).1.free (freeStep acc c).1.tab + 1 =
      cardsOutside acc.1.free acc.1.tab := by
  obtain ⟨hd, hne, hav, hf4, ht8, hnil⟩ := hinv
  rw [hne] at hcn
  obtain ⟨h13, hrank⟩ := mem_neededHome.1 hcn
  constructor
  · refine ⟨?_, ?_, ?_, ?_, ?_, ?_⟩
    · have hd2 := deckOK_free_to_home hd hcf hcn
      have e : (freeStep acc c).1.home
          = Function.update acc.1.home c.suit c.rank := by
        show Function.update acc.1.home c.suit (acc.1.home c.suit + 1) = _
        rw [hrank]
      rw [e]
      exact hd2
    · show (moveHome c acc.1.needed acc.1.home).1
        = neededHome ((moveHome c acc.1.needed acc.1.home).2)
      rw [hne, moveHome_needed hcn, moveHome_home]
    · exact hav
    · exact le_trans (Finset.card_erase_le) hf4
    · exact ht8
    · exact hnil
  · have h1 : (acc.1.free.erase c).card = acc.1.free.card - 1 :=
      Finset.card_erase_of_mem hcf
    have h2 : 1 ≤ acc.1.free.card := Finset.card_pos.2 ⟨c, hcf⟩
    show (acc.1.free.erase c).card + Multiset.card (tabMS acc.1.tab) + 1
      = acc.1.free.card + Multiset.card (tabMS acc.1.tab)
    omega

theorem avSync_step {h : Fin 4 → Nat} {f : Finset Card} {t : Finset Col}
    (hd : DeckOK h f t) {av : List (Card × Col)} (hav : AvSync av t)
    {col : Col} (hcol : col ∈ t) (hne : col ≠ []) (hnil : [] ∉ t) :
    AvSync
      (if 1 < col.length then
        (colTop col.tail, col.tail) ::
          (av.filter fun p => p.1 ≠ colTop col)
       else av.filter fun p => p.1 ≠ colTop col)
      (removeCardFromCol t col) := by
  obtain ⟨hiff, hkeys⟩ := hav
  have htopmem : colTop col ∈ col := headI_mem hne
  have hdisj : ∀ x ∈ col, ∀ col2 ∈ t.erase col, x ∉ col2 := by
    intro x hx col2 hc2 hxc2
    have h1 := (deckOK_col_facts hd hcol hx).2.2.2.1
    have h2 := count_tabMS_ge hc2 x
    have h3 : 1 ≤ (col2 : Multiset Card).count x :=
      Multiset.one_le_count_iff_mem.2 (Multiset.mem_coe.2 hxc2)
    omega
  have hmemfilter : ∀ p : Card × Col,
      p ∈ (av.filter fun q => q.1 ≠ colTop col) ↔
        p ∈ av ∧ p.1 ≠ colTop col := by
    intro p
    rw [List.mem_filter]
    simp
  constructor
  · intro p
    constructor
    · intro hp
      split_ifs at hp with hlen
      · have htne : col.tail ≠ [] := (tail_ne_nil_iff hne).2 hlen
        rcases List.mem_cons.1 hp with he | hmem
        · rw [he]
          exact ⟨mem_removeCardFromCol.2 (Or.inr ⟨htne, rfl⟩), rfl⟩
        · obtain ⟨hpav, hpne⟩ := (hmemfilter p).1 hmem
          obtain ⟨hpt, hptop⟩ := (hiff p).1 hpav
          have hp2ne : p.2 ≠ col := by
            intro he2
            exact hpne (by rw [← hptop, he2])
          exact ⟨mem_removeCardFromCol.2
            (Or.inl (Finset.mem_erase.2 ⟨hp2ne, hpt⟩)), hptop⟩
      · obtain ⟨hpav, hpne⟩ := (hmemfilter p).1 hp
        obtain ⟨hpt, hptop⟩ := (hiff p).1 hpav
        have hp2ne : p.2 ≠ col := by
          intro he2
          exact hpne (by rw [← hptop, he2])
        exact ⟨mem_removeCardFromCol.2
          (Or.inl (Finset.mem_erase.2 ⟨hp2ne, hpt⟩)), hptop⟩
    · rintro ⟨hpt, hptop⟩
      rcases mem_removeCardFromCol.1 hpt with hp2 | ⟨htne, hp2⟩
      · have hp2t : p.2 ∈ t := Finset.mem_of_mem_erase hp2
        have hp2nc : p.2 ≠ col := (Finset.mem_erase.1 hp2).1
        have hp2nn : p.2 ≠ [] := fun he => hnil (he ▸ hp2t)
        have hp1ne : p.1 ≠ colTop col := by
          intro he
          apply hdisj (colTop col) htopmem p.2 hp2
          rw [← he, ← hptop]
          exact headI_mem hp2nn
        have hpav : p ∈ av := (hiff p).2 ⟨hp2t, hptop⟩
        have hpf : p ∈ (av.filter fun q => q.1 ≠ colTop col) :=
          (hmemfilter p).2 ⟨hpav, hp1ne⟩
        split_ifs with hlen
        · exact List.mem_cons_of_mem _ hpf
        · exact hpf
      · have hlen : 1 < col.length := (tail_ne_nil_iff hne).1 htne
        rw [if_pos hlen]
        have hpe : p = (colTop col.tail, col.tail) := by
          cases p with | mk a b =>
          have hb : b = col.tail := hp2
          subst hb
          have ha : a = colTop col.tail := hptop.symm
          subst ha
          rfl
        rw [hpe]
        exact List.mem_cons_self _ _
  · have hsub : ((av.filter fun q => q.1 ≠ colTop col).map Prod.fst).Sublist
        (av.map Prod.fst) :=
      List.Sublist.map Prod.fst (List.filter_sublist av)
    have hnd : ((av.filter fun q => q.1 ≠ colTop col).map Prod.fst).Nodup :=
      hkeys.sublist hsub
    split_ifs with hlen
    · rw [List.map_cons]
      refine List.nodup_cons.2 ⟨?_, hnd⟩
      intro hmem
      obtain ⟨q, hq, hqe⟩ := List.mem_map.1 hmem
      obtain ⟨hqav, hqne⟩ := (hmemfilter q).1 hq
      obtain ⟨hqt, hqtop⟩ := (hiff q).1 hqav
      have htne : col.tail ≠ [] := (tail_ne_nil_iff hne).2 hlen
      have hxcol : colTop col.tail ∈ col :=
        List.mem_of_mem_tail (headI_mem htne)
      by_cases hq2 : q.2 = col
      · apply hqne
        rw [← hqtop, hq2]
      · have hq2e : q.2 ∈ t.erase col := Finset.mem_erase.2 ⟨hq2, hqt⟩
        apply hdisj (colTop col.tail) hxcol q.2 hq2e
        have hq2nn : q.2 ≠ [] := fun he => hnil (he ▸ hqt)
        have hqe' : q.1 = colTop col.tail := hqe
        rw [← hqe', ← hqtop]
        exact headI_mem hq2nn
    · exact hnd

theorem tabStep_needed_supset {acc : AutoCtx × Nat} {c x : Card}
    (hx : x ∈ acc.1.needed) (hxc : x ≠ c) :
    x ∈ (tabStep acc c).1.needed := by
  cases hlk : acc.1.av.lookup c with
  | none =>
    have he : (tabStep acc c).1.needed = acc.1.needed := by simp [tabStep, hlk]
    rw [he]
    exact hx
  | some col =>
    have he : (tabStep acc c).1.needed
        = (moveHome c acc.1.needed acc.1.home).1 := by simp [tabStep, hlk]
    rw [he]
    unfold moveHome
    split_ifs
    · exact Finset.mem_insert_of_mem (Finset.mem_erase.2 ⟨hxc, hx⟩)
    · exact Finset.mem_erase.2 ⟨hxc, hx⟩

theorem tabStep_inv {acc : AutoCtx × Nat} {c : Card} (hinv : CtxInv acc.1)
    (hcn : c ∈ acc.1.needed) :
    CtxInv (tabStep acc c).1 ∧
    cardsOutside (tabStep acc c).1.free (tabStep acc c).1.tab
        + (tabStep acc c).2
      = cardsOutside acc.1.free acc.1.tab + acc.2 := by
  obtain ⟨hd, hne, hav, hf4, ht8, hnil⟩ := hinv
  cases hlk : acc.1.av.lookup c with
  | none =>
    have he : tabStep acc c = acc := by simp [tabStep, hlk]
    rw [he]
    exact ⟨⟨hd, hne, hav, hf4, ht8, hnil⟩, rfl⟩
  | some col =>
    have hmem := lookup_eq_some_mem hlk
    obtain ⟨hcolt, htop⟩ := (hav.1 (c, col)).1 hmem
    have hcolne : col ≠ [] := fun he => hnil (he ▸ hcolt)
    have h_home : (tabStep acc c).1.home
        = (moveHome c acc.1.needed acc.1.home).2 := by simp [tabStep, hlk]
    have h_needed : (tabStep acc c).1.needed
        = (moveHome c acc.1.needed acc.1.home).1 := by simp [tabStep, hlk]
    have h_free : (tabStep acc c).1.free = acc.1.free := by simp [tabStep, hlk]
    have h_av : (tabStep acc c).1.av
        = (if 1 < col.length then
            (colTop col.tail, col.tail) ::
              (acc.1.av.filter fun p => p.1 ≠ c)
           else acc.1.av.filter fun p => p.1 ≠ c) := by
      simp [tabStep, hlk]
    have h_tab : (tabStep acc c).1.tab = removeCardFromCol acc.1.tab col := by
      simp [tabStep, hlk]
    have h_delta : (tabStep acc c).2 = acc.2 + 1 := by simp [tabStep, hlk]
    rw [hne] at hcn
    obtain ⟨h13, hrank⟩ := mem_neededHome.1 hcn
    obtain ⟨hms, _, _, _⟩ := top_remove_facts hd hcolt hcolne
    refine ⟨⟨?_, ?_, ?_, ?_, ?_, ?_⟩, ?_⟩
    · have hcn' : colTop col ∈ neededHome acc.1.home := by
        rw [htop]
        exact hcn
      have hd2 := deckOK_top_to_home hd hcolt hcolne hcn'
      rw [htop] at hd2
      have e : (tabStep acc c).1.home
          = Function.update acc.1.home c.suit c.rank := by
        rw [h_home, moveHome_home, hrank]
      rw [e, h_free, h_tab]
      exact hd2
    · rw [h_needed, h_home, hne, moveHome_needed hcn, moveHome_home]
    · have htop2 : colTop col = c := htop
      have hcolt2 : col ∈ acc.1.tab := hcolt
      rw [h_av, h_tab, ← htop2]
      exact avSync_step hd ⟨hav.1, hav.2⟩ hcolt2 hcolne hnil
    · rw [h_free]
      exact hf4
    · rw [h_tab]
      exact le_trans (card_removeCardFromCol_le hcolt) ht8
    · rw [h_tab]
      exact nil_not_mem_removeCardFromCol hnil
    · rw [h_free, h_tab, h_delta]
      unfold cardsOutside
      have hcard : Multiset.card (tabMS acc.1.tab)
          = Multiset.card (tabMS (removeCardFromCol acc.1.tab col)) + 1 := by
        rw [hms, Multiset.card_cons]
      omega

theorem freeFold_inv (l : List Card) :
    ∀ (acc : AutoCtx × Nat), CtxInv acc.1 → l.Nodup →
    (∀ c ∈ l, c ∈ acc.1.free ∧ c ∈ acc.1.needed) →
    CtxInv (l.foldl freeStep acc).1 ∧
    cardsOutside (l.foldl freeStep acc).1.free (l.foldl freeStep acc).1.tab
        + (l.foldl freeStep acc).2
      = cardsOutside acc.1.free acc.1.tab + acc.2 := by
  induction l with
  | nil =>
    intro acc h _ _
    exact ⟨h, rfl⟩
  | cons c rest ih =>
    intro acc hinv hnd hsub
    rw [List.foldl_cons]
    obtain ⟨hc1, hc2⟩ := hsub c (List.mem_cons_self c rest)
    obtain ⟨hinv', hms⟩ := freeStep_inv hinv hc1 hc2
    have hsub' : ∀ x ∈ rest,
        x ∈ (freeStep acc c).1.free ∧ x ∈ (freeStep acc c).1.needed := by
      intro x hx
      obtain ⟨hx1, hx2⟩ := hsub x (List.mem_cons_of_mem c hx)
      have hxc : x ≠ c := fun he => (List.nodup_cons.1 hnd).1 (he ▸ hx)
      constructor
      · show x ∈ acc.1.free.erase c
        exact Finset.mem_erase.2 ⟨hxc, hx1⟩
      · show x ∈ (moveHome c acc.1.needed acc.1.home).1
        unfold moveHome
        split_ifs
        · exact Finset.mem_insert_of_mem (Finset.mem_erase.2 ⟨hxc, hx2⟩)
        · exact Finset.mem_erase.2 ⟨hxc, hx2⟩
    obtain ⟨hfin, hfm⟩ := ih (freeStep acc c) hinv' (List.nodup_cons.1 hnd).2 hsub'
    refine ⟨hfin, ?_⟩
    have hd2 : (freeStep acc c).2 = acc.2 + 1 := rfl
    omega

theorem tabFold_inv (l : List Card) :
    ∀ (acc : AutoCtx × Nat), CtxInv acc.1 → l.Nodup →
    (∀ c ∈ l, c ∈ acc.1.needed) →
    CtxInv (l.foldl tabStep acc).1 ∧
    cardsOutside (l.foldl tabStep acc).1.free (l.foldl tabStep acc).1.tab
        + (l.foldl tabStep acc).2
      = cardsOutside acc.1.free acc.1.tab + acc.2 := by
  induction l with
  | nil =>
    intro acc h _ _
    exact ⟨h, rfl⟩
  | cons c rest ih =>
    intro acc hinv hnd hsub
    rw [List.foldl_cons]
    obtain ⟨hinv', hms⟩ := tabStep_inv hinv (hsub c (List.mem_cons_self c rest))
    have hsub' : ∀ x ∈ rest, x ∈ (tabStep acc c).1.needed := by
      intro x hx
      have hxc : x ≠ c := fun he => (List.nodup_cons.1 hnd).1 (he ▸ hx)
      exact tabStep_needed_supset (hsub x (List.mem_cons_of_mem c hx)) hxc
    obtain ⟨hfin, hfm⟩ := ih (tabStep acc c) hinv' (List.nodup_cons.1 hnd).2 hsub'
    exact ⟨hfin, by omega⟩

theorem autoPass_inv {ctx : AutoCtx} (hinv : CtxInv ctx) :
    CtxInv (autoPass ctx).1 ∧
    cardsOutside (autoPass ctx).1.free (autoPass ctx).1.tab + (autoPass ctx).2
      = cardsOutside ctx.free ctx.tab := by
  have hsub1 : ∀ c ∈ enum (automaticCards ctx.home (ctx.free ∩ ctx.needed)),
      c ∈ (ctx, 0).1.free ∧ c ∈ (ctx, 0).1.needed := by
    intro c hc
    have h2 := automaticCards_subset _ _ (mem_enum.1 hc)
    exact ⟨(Finset.mem_inter.1 h2).1, (Finset.mem_inter.1 h2).2⟩
  obtain ⟨hinv1, hm1⟩ :=
    freeFold_inv _ ((ctx, 0) : AutoCtx × Nat) hinv (enum_nodup _) hsub1
  have hsub2 : ∀ c ∈ enum (automaticCards (freePass ctx).1.home
      ((freePass ctx).1.needed.filter
        fun c => ((freePass ctx).1.av.lookup c).isSome)),
      c ∈ (freePass ctx).1.needed := by
    intro c hc
    have h2 := automaticCards_subset _ _ (mem_enum.1 hc)
    exact (Finset.mem_filter.1 h2).1
  obtain ⟨hinv2, hm2⟩ := tabFold_inv _ (freePass ctx) hinv1 (enum_nodup _) hsub2
  have hm1a : cardsOutside (freePass ctx).1.free (freePass ctx).1.tab
      + (freePass ctx).2 = cardsOutside ctx.free ctx.tab + 0 := hm1
  have hm2a : cardsOutside (autoPass ctx).1.free (autoPass ctx).1.tab
      + (autoPass ctx).2
    = cardsOutside (freePass ctx).1.free (freePass ctx).1.tab
      + (freePass ctx).2 := hm2
  have hinv2a : CtxInv (autoPass ctx).1 := hinv2
  exact ⟨hinv2a, by omega⟩

theorem autoRun_inv (fuel : Nat) :
    ∀ (ctx : AutoCtx) (cost : Nat), CtxInv ctx →
    CtxInv (autoRun fuel ctx cost).1 ∧
    cardsOutside (autoRun fuel ctx cost).1.free (autoRun fuel ctx cost).1.tab
        + (autoRun fuel ctx cost).2.1
      = cardsOutside ctx.free ctx.tab + cost := by
  induction fuel with
  | zero =>
    intro ctx cost hinv
    exact ⟨hinv, rfl⟩
  | succ n ih =>
    intro ctx cost hinv
    obtain ⟨hpinv, hpm⟩ := autoPass_inv hinv
    rw [autoRun]
    split_ifs with h
    · refine ⟨hpinv, ?_⟩
      dsimp only
      omega
    · obtain ⟨hrinv, hrm⟩ := ih (autoPass ctx).1 (cost + (autoPass ctx).2) hpinv
      exact ⟨hrinv, by omega⟩

theorem autoRun_flag_true (fuel : Nat) :
    ∀ (ctx : AutoCtx) (cost : Nat), CtxInv ctx →
    cardsOutside ctx.free ctx.tab < fuel →
    (autoRun fuel ctx cost).2.2 = true := by
  induction fuel with
  | zero =>
    intro ctx cost _ hlt
    omega
  | succ n ih =>
    intro ctx cost hinv hlt
    obtain ⟨hpinv, hpm⟩ := autoPass_inv hinv
    rw [autoRun]
    split_ifs with h
    · rfl
    · have h1 : 1 ≤ (autoPass ctx).2 := by omega
      exact ih (autoPass ctx).1 _ hpinv (by omega)

theorem autoRun_fix (fuel : Nat) :
    ∀ (ctx : AutoCtx) (cost : Nat), (autoRun fuel ctx cost).2.2 = true →
    autoPass ((autoRun fuel ctx cost).1) = ((autoRun fuel ctx cost).1, 0) := by
  induction fuel with
  | zero =>
    intro ctx cost h
    exact absurd h (by simp [autoRun])
  | succ n ih =>
    intro ctx cost hflag
    rw [autoRun] at hflag ⊢
    split_ifs at hflag ⊢ with h
    · have hz : (autoPass ctx).1 = ctx := autoPass_zero h
      dsimp only
      rw [hz, Prod.ext_iff]
      exact ⟨hz, h⟩
    · exact ih (autoPass ctx).1 _ hflag

/-! ### Bridging the state invariant and the loop invariant -/

theorem enum_length {α : Type} [LinearOrder α] (s : Finset α) :
    (enum s).length = s.card := by
  have h2 : Multiset.card (↑(enum s) : Multiset α) = Multiset.card s.val :=
    congrArg Multiset.card (enum_coe s)
  simpa using h2

theorem homeMS_zero : homeMS (fun _ => 0) = 0 := by
  unfold homeMS
  simp

theorem avTabL_keys_nodup {h : Fin 4 → Nat} {f : Finset Card} {t : Finset Col}
    (hd : DeckOK h f t) (hnil : [] ∉ t) :
    ((avTabL t).map Prod.fst).Nodup := by
  unfold avTabL
  rw [List.map_map]
  have he : (Prod.fst ∘ fun col => (colTop col, col)) = colTop := rfl
  rw [he]
  refine List.Nodup.map_on ?_ (enum_nodup t)
  intro x hx y hy hxy
  by_contra hne
  have hxt : x ∈ t := mem_enum.1 hx
  have hyt : y ∈ t := mem_enum.1 hy
  have hxne : x ≠ [] := fun hh => hnil (hh ▸ hxt)
  have hyne : y ≠ [] := fun hh => hnil (hh ▸ hyt)
  have hyx : y ∈ t.erase x := Finset.mem_erase.2 ⟨fun hh => hne hh.symm, hyt⟩
  have h1 : tabMS t = (x : Multiset Card) + tabMS (t.erase x) := tabMS_erase hxt
  have h2 : tabMS (t.erase x)
      = (y : Multiset Card) + tabMS ((t.erase x).erase y) := tabMS_erase hyx
  have hc1 : 1 ≤ (x : Multiset Card).count (colTop x) :=
    Multiset.one_le_count_iff_mem.2 (Multiset.mem_coe.2 (headI_mem hxne))
  have hc2 : 1 ≤ (y : Multiset Card).count (colTop x) := by
    rw [hxy]
    exact Multiset.one_le_count_iff_mem.2 (Multiset.mem_coe.2 (headI_mem hyne))
  have hcnt := hd (colTop x)
  rw [count_tripleMS] at hcnt
  have htt : (tabMS t).count (colTop x)
      = (x : Multiset Card).count (colTop x)
        + ((y : Multiset Card).count (colTop x)
          + (tabMS ((t.erase x).erase y)).count (colTop x)) := by
    rw [h1, h2, Multiset.count_add, Multiset.count_add]
  split_ifs at hcnt <;> omega

theorem avSync_init {h : Fin 4 → Nat} {f : Finset Card} {t : Finset Col}
    (hd : DeckOK h f t) (hnil : [] ∉ t) : AvSync (avTabL t) t :=
  ⟨fun _ => mem_avTabL, avTabL_keys_nodup hd hnil⟩

theorem stateInv_ctxinv {s : BState} (hs : StateInv s) : CtxInv (initCtx s) := by
  obtain ⟨hd, hf, ht, hnil⟩ := hs
  exact ⟨hd, rfl, avSync_init hd hnil, hf, ht, hnil⟩

theorem autoPass_pos {ctx : AutoCtx} (hinv : CtxInv ctx)
    (hq : (automaticCards ctx.home
      ((ctx.free ∪ ctx.tab.image colTop) ∩ ctx.needed)).Nonempty) :
    1 ≤ (autoPass ctx).2 := by
  obtain ⟨hd, hne, hav, hf4, ht8, hnil⟩ := hinv
  by_contra hzero
  have h0 : (autoPass ctx).2 = 0 := by omega
  have hfp2 : (freePass ctx).2
      = (automaticCards ctx.home (ctx.free ∩ ctx.needed)).card := by
    unfold freePass
    rw [freeFold_len, enum_length]
    simp
  have hmono : (freePass ctx).2 ≤ (autoPass ctx).2 := tabPass_mono _
  have hS1 : automaticCards ctx.home (ctx.free ∩ ctx.needed) = ∅ :=
    Finset.card_eq_zero.1 (by omega)
  have hfp : freePass ctx = (ctx, 0) := by
    unfold freePass
    rw [hS1, show enum (∅ : Finset Card) = [] from enum_eq_nil.2 rfl]
    rfl
  have hap : autoPass ctx = tabPass (ctx, 0) := by
    unfold autoPass
    rw [hfp]
  obtain ⟨c, hc⟩ := hq
  obtain ⟨hcmem, hcond⟩ := mem_automaticCards.1 hc
  rw [Finset.mem_inter, Finset.mem_union] at hcmem
  obtain ⟨hcav, hcneed⟩ := hcmem
  rcases hcav with hcfree | hctop
  · have : c ∈ automaticCards ctx.home (ctx.free ∩ ctx.needed) :=
      mem_automaticCards.2 ⟨Finset.mem_inter.2 ⟨hcfree, hcneed⟩, hcond⟩
    rw [hS1] at this
    exact absurd this (Finset.not_mem_empty c)
  · obtain ⟨col, hcolmem, hcoltop⟩ := Finset.mem_image.1 hctop
    have hpair : (c, col) ∈ ctx.av := (hav.1 (c, col)).2 ⟨hcolmem, hcoltop⟩
    have hlS : (ctx.av.lookup c).isSome := lookup_isSome_iff.2 ⟨col, hpair⟩
    have hcS2 : c ∈ automaticCards ctx.home
        (ctx.needed.filter fun x => (ctx.av.lookup x).isSome) :=
      mem_automaticCards.2 ⟨Finset.mem_filter.2 ⟨hcneed, hlS⟩, hcond⟩
    have hcS2' : c ∈ enum (automaticCards ctx.home
        (ctx.needed.filter fun x => (ctx.av.lookup x).isSome)) :=
      mem_enum.2 hcS2
    rw [hap] at h0
    unfold tabPass at h0
    cases hl : enum (automaticCards ctx.home
        (ctx.needed.filter fun x => (ctx.av.lookup x).isSome)) with
    | nil =>
      rw [hl] at hcS2'
      exact absurd hcS2' (List.not_mem_nil c)
    | cons c0 rest =>
      have hc0 : c0 ∈ enum (automaticCards ctx.home
          (ctx.needed.filter fun x => (ctx.av.lookup x).isSome)) := by
        rw [hl]
        exact List.mem_cons_self c0 rest
      have hc0S : (ctx.av.lookup c0).isSome :=
        (Finset.mem_filter.1
          (mem_automaticCards.1 (mem_enum.1 hc0)).1).2
      obtain ⟨col0, hlk0⟩ := Option.isSome_iff_exists.1 hc0S
      have hstep : (tabStep ((ctx, 0) : AutoCtx × Nat) c0).2 = 1 := by
        simp [tabStep, hlk0]
      have hmono2 := tabFold_mono rest (tabStep ((ctx, 0) : AutoCtx × Nat) c0)
      rw [hl] at h0
      rw [List.foldl_cons] at h0
      omega


theorem autoSome_state {s : BState} {p : BState × Nat}
    (h : (autoNeighbor s).1 = some p) :
    p = (⟨(autoRun autoFuel (initCtx s) 0).1.home,
      (autoRun autoFuel (initCtx s) 0).1.free,
      (autoRun autoFuel (initCtx s) 0).1.tab⟩,
      (autoRun autoFuel (initCtx s) 0).2.1) ∧
    (autoRun autoFuel (initCtx s) 0).2.1 ≠ 0 := by
  rw [autoNeighbor_fst] at h
  split_ifs at h with hz
  exact ⟨(Option.some.inj h).symm, hz⟩

theorem genMoves_stateInv {s st : BState} (hs : StateInv s)
    (hmem : st ∈ genMovesCtx s (initCtx s)) : StateInv st := by
  obtain ⟨hd, hf4, ht8, hnil⟩ := hs
  rcases mem_genMovesCtx hmem with h | h | h | h | h | h | h
  · -- from free onto the tableau
    obtain ⟨card, hcard, nt, hnt, he⟩ := h
    have hcf : card ∈ s.free := hcard
    have hnt' : nt ∈ toTab s.tab (neededTabOf (avTabL s.tab)) card := hnt
    subst he
    rcases mem_toTab hnt' with ⟨hc8, hnew⟩ | ⟨col, hcol, hecol⟩
    · subst hnew
      obtain ⟨hd2, _⟩ := deckOK_free_to_newcol hd hcf
      refine ⟨hd2, le_trans Finset.card_erase_le hf4, ?_,
        nil_not_mem_addCardToNewCol hnil⟩
      show (addCardToNewCol s.tab card).card ≤ 8
      have := card_addCardToNewCol (t := s.tab) (c := card)
      omega
    · subst hecol
      have hcolt : col ∈ s.tab := (mem_neededTabOf_avTabL hcol).1
      obtain ⟨hd2, _⟩ := deckOK_free_to_col hd hcf hcolt
      exact ⟨hd2, le_trans Finset.card_erase_le hf4,
        le_trans (card_addCardToCol hcolt) ht8, nil_not_mem_addCardToCol hnil⟩
  · -- from free to home
    obtain ⟨card, hcard, nh, hth, he⟩ := h
    have hcf : card ∈ s.free := hcard
    have hth' : toHome s.home (neededHome s.home) card = some nh := hth
    subst he
    unfold toHome at hth'
    split_ifs at hth' with hmemneed
    have henh : nh = Function.update s.home card.suit card.rank :=
      (Option.some.inj hth').symm
    subst henh
    exact ⟨deckOK_free_to_home hd hcf hmemneed,
      le_trans Finset.card_erase_le hf4, ht8, hnil⟩
  · -- within the tableau
    obtain ⟨nt, hnt, he⟩ := h
    have hnt' : nt ∈ withinTab s.tab (neededTabOf (avTabL s.tab)) (avTabL s.tab) :=
      hnt
    subst he
    rcases mem_withinTab hnt' with ⟨p, hp, hlen, hc8, hnew⟩ |
      ⟨p, hp, toCol, htc, hecol⟩
    · obtain ⟨hpt, htop⟩ := mem_avTabL.1 hp
      have hpne : p.2 ≠ [] := fun hh => hnil (hh ▸ hpt)
      subst hnew
      obtain ⟨hd2, _⟩ := deckOK_within_newcol hd hpt hpne
      rw [htop] at hd2
      refine ⟨hd2, hf4, ?_, nil_not_mem_addCardToNewCol
        (nil_not_mem_removeCardFromCol hnil)⟩
      show (addCardToNewCol (removeCardFromCol s.tab p.2) p.1).card ≤ 8
      have h1 := card_addCardToNewCol
        (t := removeCardFromCol s.tab p.2) (c := p.1)
      have h2 := card_removeCardFromCol_le hpt
      omega
    · obtain ⟨hpt, htop⟩ := mem_avTabL.1 hp
      have hpne : p.2 ≠ [] := fun hh => hnil (hh ▸ hpt)
      obtain ⟨htct, htny⟩ := mem_neededTabOf_avTabL htc
      have htone : toCol ≠ p.2 := by
        intro heq
        rw [heq, htop] at htny
        obtain ⟨h1r, h2r⟩ := nextType_some htny
        have h3 : p.1.type.1 = p.1.rank - 1 := by rw [h2r]
        have h4 : p.1.type.1 = p.1.rank := rfl
        omega
      subst hecol
      obtain ⟨hd2, htcr, _⟩ := deckOK_within_col hd hpt hpne htct htone
      rw [htop] at hd2
      refine ⟨hd2, hf4, ?_, nil_not_mem_addCardToCol
        (nil_not_mem_removeCardFromCol hnil)⟩
      show (addCardToCol (removeCardFromCol s.tab p.2) toCol p.1).card ≤ 8
      have h1 := card_addCardToCol htcr (c := p.1)
      have h2 := card_removeCardFromCol_le hpt
      omega
  · -- top of a column to a free cell
    obtain ⟨hfc, p, hp, he⟩ := h
    have hp' : p ∈ avTabL s.tab := hp
    obtain ⟨hpt, htop⟩ := mem_avTabL.1 hp'
    have hpne : p.2 ≠ [] := fun hh => hnil (hh ▸ hpt)
    subst he
    obtain ⟨hd2, _⟩ := deckOK_top_to_free hd hpt hpne
    rw [htop] at hd2
    refine ⟨hd2, ?_, le_trans (card_removeCardFromCol_le hpt) ht8,
      nil_not_mem_removeCardFromCol hnil⟩
    show (insert p.1 s.free).card ≤ 4
    have := Finset.card_insert_le p.1 s.free
    omega
  · -- top of a column to home
    obtain ⟨p, hp, nh, hth, he⟩ := h
    have hp' : p ∈ avTabL s.tab := hp
    obtain ⟨hpt, htop⟩ := mem_avTabL.1 hp'
    have hpne : p.2 ≠ [] := fun hh => hnil (hh ▸ hpt)
    have hth' : toHome s.home (neededHome s.home) p.1 = some nh := hth
    subst he
    unfold toHome at hth'
    split_ifs at hth' with hmemneed
    have henh : nh = Function.update s.home p.1.suit p.1.rank :=
      (Option.some.inj hth').symm
    subst henh
    have hcn : colTop p.2 ∈ neededHome s.home := by
      rw [htop]
      exact hmemneed
    have hd2 := deckOK_top_to_home hd hpt hpne hcn
    rw [htop] at hd2
    exact ⟨hd2, hf4, le_trans (card_removeCardFromCol_le hpt) ht8,
      nil_not_mem_removeCardFromCol hnil⟩
  · -- from home to a free cell
    obtain ⟨card, hcard, hfc, he⟩ := h
    subst he
    obtain ⟨hd2, _⟩ := deckOK_home_to_free hd hcard
    refine ⟨hd2, ?_, ht8, hnil⟩
    show (insert card s.free).card ≤ 4
    have := Finset.card_insert_le card s.free
    omega
  · -- from home onto the tableau
    obtain ⟨card, hcard, nt, hnt, he⟩ := h
    have hnt' : nt ∈ toTab s.tab (neededTabOf (avTabL s.tab)) card := hnt
    subst he
    rcases mem_toTab hnt' with ⟨hc8, hnew⟩ | ⟨col, hcol, hecol⟩
    · subst hnew
      obtain ⟨hd2, _⟩ := deckOK_home_to_newcol hd hcard
      refine ⟨hd2, hf4, ?_, nil_not_mem_addCardToNewCol hnil⟩
      show (addCardToNewCol s.tab card).card ≤ 8
      have := card_addCardToNewCol (t := s.tab) (c := card)
      omega
    · subst hecol
      have hcolt : col ∈ s.tab := (mem_neededTabOf_avTabL hcol).1
      obtain ⟨hd2, _⟩ := deckOK_home_to_col hd hcard hcolt
      exact ⟨hd2, hf4, le_trans (card_addCardToCol hcolt) ht8,
        nil_not_mem_addCardToCol hnil⟩

theorem neighbors_stateInv {s : BState} {p : BState × Nat}
    (hs : StateInv s) (hp : p ∈ neighbors s) : StateInv p.1 := by
  cases hopt : (autoNeighbor s).1 with
  | some q =>
    have hnq : neighbors s = [q] := by rw [neighbors_eq, hopt]
    rw [hnq, List.mem_singleton] at hp
    subst hp
    obtain ⟨hq, _⟩ := autoSome_state hopt
    obtain ⟨hctx, _⟩ := autoRun_inv autoFuel (initCtx s) 0 (stateInv_ctxinv hs)
    obtain ⟨hd, hne2, hav, hf4, ht8, hnil⟩ := hctx
    rw [hq]
    exact ⟨hd, hf4, ht8, hnil⟩
  | none =>
    rw [neighbors_of_auto_none hopt, List.mem_map] at hp
    obtain ⟨st, hst, he⟩ := hp
    have h1 : p.1 = st := by rw [← he]
    rw [h1]
    exact genMoves_stateInv hs hst

theorem reachable_stateInv {s0 s : BState} (h0 : StateInv s0)
    (hr : Reachable s0 s) : StateInv s := by
  induction hr with
  | refl => exact h0
  | step h1 h2 ih => exact neighbors_stateInv ih h2

theorem validInit_stateInv {s : BState} (hv : ValidInit s) : StateInv s := by
  obtain ⟨hh, hf, ht, hc8, hnil⟩ := hv
  refine ⟨?_, ?_, hc8, hnil⟩
  · rw [deckOK_iff]
    unfold tripleMS
    rw [hh, hf, homeMS_zero, ht]
    simp
  · rw [hf]
    simp

theorem stateInv_claimInv {s : BState} (hs : StateInv s) : ClaimInv s := by
  obtain ⟨hd, hf4, ht8, hnil⟩ := hs
  refine ⟨?_, hf4, ht8, hnil⟩
  intro c hreal
  have h1 := hd c
  rw [count_tripleMS, if_pos hreal, count_homeMS] at h1
  have hfree : s.free.val.count c = if c ∈ s.free then 1 else 0 := by
    split_ifs with hmem
    · exact Multiset.count_eq_one_of_mem s.free.nodup hmem
    · exact Multiset.count_eq_zero_of_not_mem hmem
  rw [hfree] at h1
  unfold appearsOnce
  by_cases hh : c.rank ≤ s.home c.suit
  · rw [if_pos ⟨hreal.1, hh⟩] at h1
    split_ifs at h1 with hfm
    · exact absurd h1 (by omega)
    · exact Or.inl ⟨hh, hfm, by omega⟩
  · rw [if_neg (fun hand => hh hand.2)] at h1
    split_ifs at h1 with hfm
    · exact Or.inr (Or.inl ⟨hh, hfm, by omega⟩)
    · exact Or.inr (Or.inr ⟨hh, hfm, by omega⟩)

/-- C6: every state reachable from a valid initial state by repeated
application of `neighbors` keeps the invariant: each of the 52 cards
appears in exactly one of home (rank ≤ home[suit]), the free-cell set, or
some tableau column; at most 4 free cells; at most 8 columns; and no
empty column is represented in the tableau set. -/
theorem reachable_claim_inv {s0 s : BState} (h0 : ValidInit s0)
    (hr : Reachable s0 s) : ClaimInv s :=
  stateInv_claimInv (reachable_stateInv (validInit_stateInv h0) hr)

theorem reachable_claim_inv_witness :
    ValidInit dealState ∧ ClaimInv dealState :=
  ⟨⟨rfl, rfl, by decide, by decide, by decide⟩,
    reachable_claim_inv ⟨rfl, rfl, by decide, by decide, by decide⟩
      (Reachable.refl dealState)⟩

/-- C2: in a state where at least one card qualifies as auto-movable (and
the deck invariant holds), `neighbors` returns exactly one successor — no
other move category contributes — whose edge cost counts the forced moves
(each sends one card outside the home piles home, so the cost, at least 1,
equals the drop in the number of cards outside home), home piles never
shrink along it, and in the returned state no card qualifies any more. -/
theorem auto_compress_neighbors {s : BState} (hs : StateInv s)
    (hq : autoQualifies s) :
    ∃ p : BState × Nat, neighbors s = [p] ∧ 1 ≤ p.2 ∧
      p.2 + cardsOutside p.1.free p.1.tab = cardsOutside s.free s.tab ∧
      (∀ i : Fin 4, s.home i ≤ p.1.home i) ∧
      ¬ autoQualifies p.1 := by
  have hctx0 : CtxInv (initCtx s) := stateInv_ctxinv hs
  have hpos : 1 ≤ (autoPass (initCtx s)).2 := by
    apply autoPass_pos hctx0
    exact hq
  have hcost : 1 ≤ (autoRun autoFuel (initCtx s) 0).2.1 := by
    have hfu : autoFuel = 52 + 1 := rfl
    rw [hfu, autoRun]
    split_ifs with h
    · omega
    · have := autoRun_cost_mono 52 (autoPass (initCtx s)).1
        (0 + (autoPass (initCtx s)).2)
      omega
  obtain ⟨hctxr, hmeas⟩ := autoRun_inv autoFuel (initCtx s) 0 hctx0
  have hz : ¬(autoRun autoFuel (initCtx s) 0).2.1 = 0 := by omega
  refine ⟨(⟨(autoRun autoFuel (initCtx s) 0).1.home,
      (autoRun autoFuel (initCtx s) 0).1.free,
      (autoRun autoFuel (initCtx s) 0).1.tab⟩,
      (autoRun autoFuel (initCtx s) 0).2.1), ?_, hcost, ?_, ?_, ?_⟩
  · rw [neighbors_eq, autoNeighbor_fst, if_neg hz]
  · show (autoRun autoFuel (initCtx s) 0).2.1
        + cardsOutside (autoRun autoFuel (initCtx s) 0).1.free
          (autoRun autoFuel (initCtx s) 0).1.tab
      = cardsOutside s.free s.tab
    have hmeas' : cardsOutside (autoRun autoFuel (initCtx s) 0).1.free
          (autoRun autoFuel (initCtx s) 0).1.tab
        + (autoRun autoFuel (initCtx s) 0).2.1
      = cardsOutside s.free s.tab + 0 := hmeas
    omega
  · intro i
    show s.home i ≤ (autoRun autoFuel (initCtx s) 0).1.home i
    exact autoRun_home_le autoFuel (initCtx s) 0 i
  · intro hq2
    have hflag : (autoRun autoFuel (initCtx s) 0).2.2 = true := by
      apply autoRun_flag_true autoFuel (initCtx s) 0 hctx0
      have hle : cardsOutside (initCtx s).free (initCtx s).tab ≤ 52 :=
        cardsOutside_le hctx0.1
      have h53 : autoFuel = 53 := rfl
      omega
    have hfix := autoRun_fix autoFuel (initCtx s) 0 hflag
    have hqr : (automaticCards (autoRun autoFuel (initCtx s) 0).1.home
        (((autoRun autoFuel (initCtx s) 0).1.free
          ∪ (autoRun autoFuel (initCtx s) 0).1.tab.image colTop)
          ∩ (autoRun autoFuel (initCtx s) 0).1.needed)).Nonempty := by
      have hneed := hctxr.2.1
      rw [hneed]
      exact hq2
    have hp1 := autoPass_pos hctxr hqr
    rw [hfix] at hp1
    exact Nat.not_succ_le_zero 0 hp1

theorem auto_compress_neighbors_witness :
    ∃ p : BState × Nat, neighbors autoWitnessState = [p] ∧ 1 ≤ p.2 ∧
      p.2 + cardsOutside p.1.free p.1.tab
        = cardsOutside autoWitnessState.free autoWitnessState.tab ∧
      (∀ i : Fin 4, autoWitnessState.home i ≤ p.1.home i) ∧
      ¬ autoQualifies p.1 :=
  auto_compress_neighbors
    ⟨deckOK_iff.2 (by decide), by decide, by decide, by decide⟩
    (by show (automaticCards autoWitnessState.home
          (autoCandidates autoWitnessState)).Nonempty
        decide)
